import Mathlib

/-!
Verification of the JSON compression codec in this repository against its
natural-language specification.

The development shallowly embeds the two compressor modules:
  * `CR` models `compressed_readable.py` (the v22 binary-packing codec);
  * `JC` models `json_compressor.py` (the simpler columnar codec);
  * `V26` models the string branch of `versions/v26.py`.

Modelling conventions:
  * JSON values are the inductive `JVal`.  Python `int` maps to `Int`,
    Python `float` to an exact rational `ℚ` (float arithmetic is idealized
    as exact rational arithmetic; every theorem below evaluates the model
    only on integer, boolean and string data, where the idealization is
    exact).  Python `bool` is kept separate but, as in Python, counts as an
    integer inside `isinstance(n, int)` checks and arithmetic.
  * Python dicts become association lists preserving insertion order,
    which is Python 3.7+ dict semantics; keys are unique in every dict the
    code builds.
  * `json.loads (json.dumps x) = x` for such values, so the decoder is
    modelled on the parsed value (`decompress_json_parsed`) rather than on
    the serialized text.
  * Exceptions (`struct.error`, `OverflowError`, `IndexError`, ...) are
    modelled with `Except PyErr`.
  * Recursive walks take an explicit fuel argument and are structural on
    the fuel, so every definition is executable and kernel-reducible; the
    Python recursions all terminate, and concrete evaluations below use
    ample fuel.  Universal theorems quantify over the fuel.
-/

/-- A JSON value as manipulated by the Python code. -/
inductive JVal where
  | null : JVal
  | bool (b : Bool) : JVal
  | int (n : Int) : JVal
  | float (q : ℚ) : JVal
  | str (s : String) : JVal
  | arr (xs : List JVal) : JVal
  | obj (kvs : List (String × JVal)) : JVal

/-- Python exception kinds raised by the code paths modelled here.
`fuelOut` is a model artifact marking exhausted recursion fuel. -/
inductive PyErr where
  | structError
  | overflowError
  | indexError
  | keyError
  | typeError
  | valueError
  | binasciiError
  | unicodeError
  | fuelOut
deriving DecidableEq

/-- First-match association lookup, the semantics of reading a Python dict
field (keys are unique in all dicts built by the code). -/
def alook {α : Type} : List (String × α) → String → Option α
  | [], _ => none
  | (k, v) :: rest, key => if k = key then some v else alook rest key

def isBoolJ : JVal → Bool
  | .bool _ => true
  | _ => false

/-- `isinstance(x, (int, float))` — Python booleans are integers. -/
def isNumJ : JVal → Bool
  | .bool _ => true
  | .int _ => true
  | .float _ => true
  | _ => false

/-- `isinstance(x, int)` — true for booleans as well. -/
def isIntLike : JVal → Bool
  | .bool _ => true
  | .int _ => true
  | _ => false

def isObjJ : JVal → Bool
  | .obj _ => true
  | _ => false

def isStrJ : JVal → Bool
  | .str _ => true
  | _ => false

/-- Numeric value of a Python number (`True` counts as 1). -/
def toQ0 : JVal → ℚ
  | .bool b => if b then 1 else 0
  | .int n => (n : ℚ)
  | .float q => q
  | _ => 0

/-- Integer value of an `isinstance(_, int)` Python value. -/
def ival : JVal → Int
  | .bool b => if b then 1 else 0
  | .int n => n
  | _ => 0

/-- Python subtraction `a - b` on numbers: `int - int` is an `int`,
anything involving a float is a float. -/
def pySubJ (a b : JVal) : JVal :=
  if isIntLike a && isIntLike b then .int (ival a - ival b)
  else .float (toQ0 a - toQ0 b)

/-- Round the fraction `n / d` to the nearest natural number, ties to
even (Python banker's rounding); written gcd-free so that it reduces in
the kernel. -/
def roundHalfEvenND (n d : Nat) : Nat :=
  let quot := n / d
  let r := n % d
  if 2 * r < d then quot
  else if d < 2 * r then quot + 1
  else if quot % 2 = 0 then quot else quot + 1

/-- Banker's rounding of a nonnegative rational to the nearest natural
number. -/
def roundHalfEvenNN (q : ℚ) : Nat := roundHalfEvenND q.num.toNat q.den

/-- `round(d, 10) * 10^10` for the fraction `dn / dd`: the integer whose
equality across deltas `_is_sequential` compares.  Exact on integer
deltas; on float deltas the binary floating-point rounding is idealized
as exact rational rounding. -/
def roundScaled10 (dn : Int) (dd : Nat) : Int :=
  let sn := dn * 10000000000
  if sn < 0 then -(roundHalfEvenND (-sn).toNat dd : Int)
  else (roundHalfEvenND sn.toNat dd : Int)

/-- `round(numbers[i+1] - numbers[i], 10)` scaled by `10^10`, computed on
the exact fraction of the difference (gcd-free). -/
def deltaRound (a b : JVal) : Int :=
  roundScaled10
    ((toQ0 b).num * ((toQ0 a).den : Int) - (toQ0 a).num * ((toQ0 b).den : Int))
    ((toQ0 a).den * (toQ0 b).den)

/-- `int(s)` on a decimal string (optional sign); other shapes raise
`ValueError`.  (Python also strips whitespace and allows underscores;
those inputs never occur here.) -/
def parsePyIntCore (ds : List Char) : Except PyErr Nat :=
  if ds.isEmpty || !ds.all (·.isDigit) then .error .valueError
  else .ok (ds.foldl (fun acc c => acc * 10 + (c.toNat - 48)) 0)

def parsePyInt (s : String) : Except PyErr Int :=
  match s.data with
  | [] => .error .valueError
  | c :: rest =>
      if c = '-' then (parsePyIntCore rest).map (fun n => -(n : Int))
      else if c = '+' then (parsePyIntCore rest).map (fun n => (n : Int))
      else (parsePyIntCore (c :: rest)).map (fun n => (n : Int))

/-- Decimal digits of `n`, most significant first (`gas` bounds the loop). -/
def natDecGo : Nat → Nat → List Char
  | 0, _ => []
  | _ + 1, 0 => []
  | gas + 1, n => natDecGo gas (n / 10) ++ [Char.ofNat (48 + n % 10)]

/-- Decimal rendering of a natural number (Python `f"{n}"`). -/
def natDecimal (n : Nat) : String :=
  if n = 0 then "0" else String.mk (natDecGo n n)

/-- Base-62 digit alphabet shared by `_encode_base62` in both modules. -/
def base62chars : String :=
  "0123456789ABCDEFGHIJKLMNOPQRSTUVWXYZabcdefghijklmnopqrstuvwxyz"

def base62digit (k : Nat) : Char := base62chars.data.getD k '0'

/-- Digits of `n` in base 62, most significant first (`gas` bounds the
loop; `_encode_base62` divides by 62 until zero). -/
def base62go : Nat → Nat → List Char
  | 0, _ => []
  | _ + 1, 0 => []
  | gas + 1, n => base62go gas (n / 62) ++ [base62digit (n % 62)]

/-- `_encode_base62`: base-62 encoding, zero encodes as "0". -/
def encode_base62 (n : Nat) : String :=
  if n = 0 then "0" else String.mk (base62go n n)

/-- Standard base64 alphabet. -/
def b64chars : String :=
  "ABCDEFGHIJKLMNOPQRSTUVWXYZabcdefghijklmnopqrstuvwxyz0123456789+/"

def b64digit (k : Nat) : Char := b64chars.data.getD k 'A'

def b64val (c : Char) : Option Nat :=
  let i := b64chars.data.indexOf c
  if i < 64 then some i else none

/-- base64-encode a byte list (3 bytes to 4 chars, '=' padding),
written with the arithmetic the bit operations compute. -/
def b64encodeGo : List Nat → List Char
  | [] => []
  | [a] => [b64digit (a / 4), b64digit (a % 4 * 16), '=', '=']
  | [a, b] => [b64digit (a / 4), b64digit (a % 4 * 16 + b / 16), b64digit (b % 16 * 4), '=']
  | a :: b :: c :: rest =>
      b64digit (a / 4) :: b64digit (a % 4 * 16 + b / 16) ::
      b64digit (b % 16 * 4 + c / 64) :: b64digit (c % 64) :: b64encodeGo rest

def b64encodeBytes (bs : List Nat) : String := String.mk (b64encodeGo bs)

/-- Decode a run of base64 quads.  A quad ending in padding yields its
bytes and stops (as `binascii` does). -/
def b64decodeGo : List Nat → List Char → Except PyErr (List Nat)
  | acc, [] => .ok acc
  | acc, a :: b :: c :: d :: rest =>
      match b64val a, b64val b with
      | some va, some vb =>
          if c = '=' then .ok (acc ++ [va * 4 + vb / 16])
          else
            match b64val c with
            | some vc =>
                if d = '=' then .ok (acc ++ [va * 4 + vb / 16, vb % 16 * 16 + vc / 4])
                else
                  match b64val d with
                  | some vd =>
                      b64decodeGo
                        (acc ++ [va * 4 + vb / 16, vb % 16 * 16 + vc / 4, vc % 4 * 64 + vd]) rest
                  | none => .error .binasciiError
            | none => .error .binasciiError
      | _, _ => .error .binasciiError
  | _, _ => .error .binasciiError

/-- `base64.b64decode`: characters outside the alphabet and '=' are
discarded, then the remaining length must be a multiple of 4. -/
def b64decodeStr (s : String) : Except PyErr (List Nat) :=
  let kept := s.data.filter (fun c => (b64val c).isSome || c = '=')
  if kept.length % 4 = 0 then b64decodeGo [] kept else .error .binasciiError

/-- UTF-8 bytes of one scalar value. -/
def utf8EncodeChar (c : Char) : List Nat :=
  let n := c.toNat
  if n < 128 then [n]
  else if n < 2048 then [192 + n / 64, 128 + n % 64]
  else if n < 65536 then [224 + n / 4096, 128 + n / 64 % 64, 128 + n % 64]
  else [240 + n / 262144, 128 + n / 4096 % 64, 128 + n / 64 % 64, 128 + n % 64]

def utf8Encode (s : String) : List Nat := s.data.foldr (fun c acc => utf8EncodeChar c ++ acc) []

def isCont (b : Nat) : Bool := 128 ≤ b && b < 192

/-- Decode UTF-8 bytes back to characters (basic validity checks; enough
for all byte strings the encoder produces). -/
def utf8DecodeGo : List Nat → Option (List Char)
  | [] => some []
  | b :: rest =>
    if b < 128 then (utf8DecodeGo rest).map (Char.ofNat b :: ·)
    else if b < 192 then none
    else
      match rest with
      | b1 :: rest1 =>
        if b < 224 then
          if isCont b1 then (utf8DecodeGo rest1).map (Char.ofNat ((b - 192) * 64 + (b1 - 128)) :: ·)
          else none
        else
          match rest1 with
          | b2 :: rest2 =>
            if b < 240 then
              if isCont b1 && isCont b2 then
                (utf8DecodeGo rest2).map
                  (Char.ofNat ((b - 224) * 4096 + (b1 - 128) * 64 + (b2 - 128)) :: ·)
              else none
            else
              match rest2 with
              | b3 :: rest3 =>
                if isCont b1 && isCont b2 && isCont b3 then
                  (utf8DecodeGo rest3).map
                    (Char.ofNat ((b - 240) * 262144 + (b1 - 128) * 4096 +
                      (b2 - 128) * 64 + (b3 - 128)) :: ·)
                else none
              | [] => none
          | [] => none
      | [] => none

def utf8Decode (bs : List Nat) : Option String := (utf8DecodeGo bs).map String.mk

/-- Python `len` on a string: the number of code points. -/
def pyLen (s : String) : Nat := s.data.length

def hexDigit (k : Nat) : Char := "0123456789abcdef".data.getD k '0'

def hex4 (n : Nat) : String :=
  String.mk [hexDigit (n / 4096 % 16), hexDigit (n / 256 % 16), hexDigit (n / 16 % 16), hexDigit (n % 16)]

/-- `json.dumps` escaping of one character (default `ensure_ascii=True`). -/
def jsonEscapeChar (c : Char) : String :=
  if c = '"' then "\\\""
  else if c = '\\' then "\\\\"
  else if c = '\n' then "\\n"
  else if c = '\t' then "\\t"
  else if c = '\r' then "\\r"
  else if c.toNat = 8 then "\\b"
  else if c.toNat = 12 then "\\f"
  else if c.toNat < 32 then "\\u" ++ hex4 c.toNat
  else if c.toNat < 127 then String.mk [c]
  else if c.toNat < 65536 then "\\u" ++ hex4 c.toNat
  else
    let m := c.toNat - 65536
    "\\u" ++ hex4 (55296 + m / 1024) ++ "\\u" ++ hex4 (56320 + m % 1024)

def jsonQuote (s : String) : String :=
  "\"" ++ String.join (s.data.map jsonEscapeChar) ++ "\""

/-- Decimal rendering of a float value.  Python prints the shortest
round-tripping decimal of the IEEE double; this model prints an exact
decimal when one exists.  No theorem below evaluates it: the claims never
measure serialized floats. -/
def dumpFloatStr (q : ℚ) : String :=
  let sign := if q < 0 then "-" else ""
  let a := |q|
  let ip := a.num.toNat / a.den
  let fracNum := a.num.toNat % a.den
  let digits := (List.range 17).foldl
    (fun (st : Nat × String) _ =>
      let n2 := st.1 * 10
      (n2 % a.den, st.2 ++ String.mk [hexDigit (n2 / a.den % 16)]))
    (fracNum, "")
  let frac := if digits.2 = "" then "0" else digits.2
  sign ++ toString ip ++ "." ++ frac

/-- `json.dumps(..., separators=(',', ':'))`: compact JSON text.
Fuel-indexed; one unit of fuel per nesting level. -/
def dumpsF : Nat → JVal → String
  | 0, _ => ""
  | _ + 1, .null => "null"
  | _ + 1, .bool b => if b then "true" else "false"
  | _ + 1, .int n => toString n
  | _ + 1, .float q => dumpFloatStr q
  | _ + 1, .str s => jsonQuote s
  | gas + 1, .arr xs => "[" ++ String.intercalate "," (xs.map (dumpsF gas)) ++ "]"
  | gas + 1, .obj kvs =>
      "\x7b" ++
        String.intercalate "," (kvs.map (fun p => jsonQuote p.1 ++ ":" ++ dumpsF gas p.2)) ++
      "\x7d"

/-- Little-endian two's-complement bytes of an integer (native byte order
of `struct.pack` on the reference platform). -/
def toBytesLE (width : Nat) (n : Int) : List Nat :=
  let m := (n % ((2 : Int) ^ (8 * width))).toNat
  (List.range width).map (fun j => m / 256 ^ j % 256)

/-- Signed integer from little-endian bytes. -/
def fromBytesLE (bs : List Nat) : Int :=
  let m : Nat := (bs.reverse).foldl (fun acc b => acc * 256 + b) 0
  let w := bs.length
  if 2 ^ (8 * w - 1) ≤ m then (m : Int) - 2 ^ (8 * w) else (m : Int)

/-- 2^e as a rational, for integer e. -/
def qpow2 (e : Int) : ℚ :=
  if 0 ≤ e then ((2 : ℚ) ^ e.toNat) else 1 / ((2 : ℚ) ^ (-e).toNat)

/-- Binary exponent of a positive rational: the e with 2^e ≤ a < 2^(e+1). -/
def ilog2q (a : ℚ) : Int :=
  let c : Int := (Nat.log2 a.num.toNat : Int) - (Nat.log2 a.den : Int)
  if qpow2 (c + 1) ≤ a then c + 1
  else if qpow2 c ≤ a then c
  else c - 1

/-- IEEE-754 binary64 encoding of a rational (round to nearest, ties to
even), as `struct.pack('d', x)` computes; 8 little-endian bytes.
Magnitudes at or above 2^1024 raise `OverflowError` (Python
`struct.pack('d', huge_int)`). -/
def packDouble (q : ℚ) : Except PyErr (List Nat) :=
  if q = 0 then .ok (List.replicate 8 0)
  else
    let sgn : Nat := if q < 0 then 1 else 0
    let a := |q|
    let e := ilog2q a
    if e < -1022 then
      -- subnormal range (or rounds up into the smallest normal binary64)
      let m := roundHalfEvenNN (a * qpow2 1074)
      .ok (toBytesLE 8 ((sgn * 2 ^ 63 + m : Nat) : Int))
    else
      let m := roundHalfEvenNN (a * qpow2 (52 - e))
      let em := if m = 2 ^ 53 then (e + 1, (2 : Nat) ^ 52) else (e, m)
      if 1023 < em.1 then .error .overflowError
      else
        .ok (toBytesLE 8
          ((sgn * 2 ^ 63 + (em.1 + 1023).toNat * 2 ^ 52 + (em.2 - 2 ^ 52) : Nat) : Int))

/-- Rational value of 8 little-endian IEEE-754 binary64 bytes.
Infinities and NaN (never produced by the encoder) are idealized to 0. -/
def unpackDouble (bs : List Nat) : ℚ :=
  let m : Nat := (bs.reverse).foldl (fun acc b => acc * 256 + b) 0
  let sgn : ℚ := if m / 2 ^ 63 % 2 = 1 then -1 else 1
  let ex : Nat := m / 2 ^ 52 % 2048
  let frac : Nat := m % 2 ^ 52
  if ex = 2047 then 0
  else if ex = 0 then sgn * (frac : ℚ) * qpow2 (-1074)
  else sgn * (((2 ^ 52 + frac : Nat) : ℚ)) * qpow2 ((ex : Int) - 1075)

/-- Map an `Except`-producing function over a list. -/
def exMap {α β : Type} (f : α → Except PyErr β) : List α → Except PyErr (List β)
  | [] => .ok []
  | x :: rest =>
      match f x with
      | .error e => .error e
      | .ok y => (exMap f rest).map (y :: ·)

/-- `_pack_numbers` of `compressed_readable.py`: choose the narrowest
signed fixed width (8/16/32-bit) holding every integer, else pack as
binary64; tag with a single prefix character.  `struct.pack('{n}i', ...)`
raises `struct.error` when an integer exceeds 32-bit range. -/
def pack_numbers (xs : List JVal) : Except PyErr String :=
  if xs.all (fun v => isIntLike v && decide (-128 ≤ ival v) && decide (ival v ≤ 127)) then
    .ok ("B" ++ b64encodeBytes (xs.foldr (fun v acc => toBytesLE 1 (ival v) ++ acc) []))
  else if xs.all (fun v => isIntLike v && decide (-32768 ≤ ival v) && decide (ival v ≤ 32767)) then
    .ok ("H" ++ b64encodeBytes (xs.foldr (fun v acc => toBytesLE 2 (ival v) ++ acc) []))
  else if xs.all isIntLike then
    if xs.all (fun v => decide (-2147483648 ≤ ival v) && decide (ival v ≤ 2147483647)) then
      .ok ("I" ++ b64encodeBytes (xs.foldr (fun v acc => toBytesLE 4 (ival v) ++ acc) []))
    else .error .structError
  else
    (exMap (fun v => packDouble (toQ0 v)) xs).map
      (fun bss => "D" ++ b64encodeBytes bss.flatten)

/-- Split a byte list into fixed-width chunks (length is a multiple of the
width when called). -/
def chunksGo (w : Nat) : Nat → List Nat → List (List Nat)
  | 0, _ => []
  | _, [] => []
  | gas + 1, bs => bs.take w :: chunksGo w gas (bs.drop w)

def chunks (w : Nat) (bs : List Nat) : List (List Nat) := chunksGo w bs.length bs

/-- `_unpack_numbers`: dispatch on the leading type character; any
character other than B/H/I is treated as 'D'.  `struct.unpack` raises
`struct.error` when the buffer length is not a multiple of the item
width implied by its count (from floor division). -/
def unpack_numbers (s : String) : Except PyErr (List JVal) :=
  match s.data with
  | [] => .error .indexError
  | tc :: rest =>
    match b64decodeStr (String.mk rest) with
    | .error e => .error e
    | .ok packed =>
      if tc = 'B' then .ok (packed.map (fun b => JVal.int (fromBytesLE [b])))
      else if tc = 'H' then
        if packed.length % 2 = 0 then
          .ok ((chunks 2 packed).map (fun c => JVal.int (fromBytesLE c)))
        else .error .structError
      else if tc = 'I' then
        if packed.length % 4 = 0 then
          .ok ((chunks 4 packed).map (fun c => JVal.int (fromBytesLE c)))
        else .error .structError
      else
        if packed.length % 8 = 0 then
          .ok ((chunks 8 packed).map (fun c => JVal.float (unpackDouble c)))
        else .error .structError

/-- Byte value of up to 8 booleans, least-significant-bit first: the
result of the `byte_array[i // 8] |= 1 << (i % 8)` loop on one byte. -/
def byteOfBits : List Bool → Nat
  | [] => 0
  | b :: rest => (if b then 1 else 0) + 2 * byteOfBits rest

/-- Split a boolean list into groups of 8. -/
def boolChunksGo : Nat → List Bool → List (List Bool)
  | 0, _ => []
  | _, [] => []
  | gas + 1, bs => bs.take 8 :: boolChunksGo gas (bs.drop 8)

/-- The byte buffer built by `_pack_booleans`: `ceil(n/8)` bytes, bit
`i % 8` of byte `i // 8` set iff element `i` is true. -/
def packBits (bs : List Bool) : List Nat := (boolChunksGo bs.length bs).map byteOfBits

/-- `_pack_booleans`: "T" + base64(bit buffer) + ":" + count. -/
def pack_booleans (bs : List Bool) : String :=
  "T" ++ b64encodeBytes (packBits bs) ++ ":" ++ natDecimal bs.length

/-- `str.split(':', 1)`: split at the first colon. -/
def splitFirstColon (s : String) : Option (String × String) :=
  match s.data.findIdx? (· = ':') with
  | none => none
  | some i => some (String.mk (s.data.take i), String.mk (s.data.drop (i + 1)))

/-- `_unpack_booleans`: parse "T<base64>:<count>", then read bit `i % 8`
of byte `i // 8` for each `i < count`; a count beyond the buffer raises
`IndexError`, a missing colon raises `IndexError` on `parts[1]`. -/
def unpack_booleans (s : String) : Except PyErr (List Bool) :=
  match splitFirstColon (String.mk s.data.tail) with
  | none => .error .indexError
  | some (p0, p1) =>
    match b64decodeStr p0 with
    | .error e => .error e
    | .ok bytes =>
      match parsePyInt p1 with
      | .error e => .error e
      | .ok cnt =>
        exMap
          (fun i =>
            match bytes.get? (i / 8) with
            | none => .error .indexError
            | some byte => .ok (byte / 2 ^ (i % 8) % 2 = 1 : Bool))
          (List.range cnt.toNat)

/-- Compressor key-dictionary state: `self.key_map` (insertion-ordered)
and `self.key_counter`. -/
structure KSt where
  keyMap : List (String × String)
  counter : Nat

def boolOf : JVal → Bool
  | .bool b => b
  | _ => false

def objKeys : JVal → List String
  | .obj kvs => kvs.map (·.1)
  | _ => []

/-- Python `set(a) == set(b)` on key lists. -/
def keySetEq (a b : List String) : Bool := a.all b.contains && b.all a.contains

/-- All elements are dicts whose key set equals the first element's. -/
def sameKeySetAll (xs : List JVal) : Bool :=
  let k0 := objKeys (xs.headD .null)
  xs.all (fun x => keySetEq (objKeys x) k0)

/-- The scaled rounded successive differences of a numeric list. -/
def deltaRounds : List JVal → List Int
  | a :: b :: rest => deltaRound a b :: deltaRounds (b :: rest)
  | _ => []

namespace CR

/-- `_get_short_key` of `compressed_readable.py`: every key receives a
base-62 code ("compress ALL keys"), assigned in first-encounter order. -/
def get_short_key (st : KSt) (k : String) : KSt × String :=
  match alook st.keyMap k with
  | some sk => (st, sk)
  | none =>
      let sk := encode_base62 st.counter
      (⟨st.keyMap ++ [(k, sk)], st.counter + 1⟩, sk)

/-- `_is_sequential`: at least 3 numbers whose successive differences
agree after `round(d, 10)`. -/
def is_sequential (xs : List JVal) : Bool :=
  if xs.length < 3 then false
  else if !xs.all isNumJ then false
  else
    match deltaRounds xs with
    | [] => true
    | d :: rest => rest.all (fun x => x == d)

/-- `_is_constant`, parametrized by Python equality `v == values[0]`. -/
def is_constant (pe : JVal → JVal → Bool) (xs : List JVal) : Bool :=
  !xs.isEmpty && xs.all (fun v => pe v (xs.headD .null))

/-- One fuel level of the recursive compressor: Python `==`, the
`_compress_value` walk and the `_compress_array` classifier. -/
structure CFns where
  py_eq : JVal → JVal → Bool
  compress_value : KSt → JVal → Except PyErr (KSt × JVal)
  compress_array : KSt → List JVal → Except PyErr (KSt × JVal)

def cFail : CFns :=
  ⟨fun _ _ => false, fun _ _ => .error .fuelOut, fun _ _ => .error .fuelOut⟩

/-- Thread the state through an element-wise compression
(`[self._compress_value(item) for item in arr]`). -/
def stMapP (f : KSt → JVal → Except PyErr (KSt × JVal)) :
    KSt → List JVal → Except PyErr (KSt × List JVal)
  | st, [] => .ok (st, [])
  | st, v :: rest =>
      match f st v with
      | .error e => .error e
      | .ok (st1, w) =>
          match stMapP f st1 rest with
          | .error e => .error e
          | .ok (st2, ws) => .ok (st2, w :: ws)

/-- `_compress_object`: substitute each key and compress each value,
in insertion order. -/
def objFoldP (f : KSt → JVal → Except PyErr (KSt × JVal)) :
    KSt → List (String × JVal) → Except PyErr (KSt × List (String × JVal))
  | st, [] => .ok (st, [])
  | st, (k, v) :: rest =>
      match f (get_short_key st k).1 v with
      | .error e => .error e
      | .ok (st2, w) =>
          match objFoldP f st2 rest with
          | .error e => .error e
          | .ok (st3, l) => .ok (st3, ((get_short_key st k).2, w) :: l)

/-- `[item[orig_key] for item in arr]` (all items are dicts holding the
key under the columnar guard). -/
def colValues (xs : List JVal) (k : String) : Except PyErr (List JVal) :=
  exMap
    (fun item =>
      match item with
      | .obj kvs =>
          match alook kvs k with
          | some v => .ok v
          | none => .error .keyError
      | _ => .error .typeError)
    xs

/-- Encode one column of the columnar transform: constant, then delta,
then boolean bit-pack, then numeric binary pack, else element-wise. -/
def colFor (p : CFns) (st : KSt) (xs : List JVal) (k : String) :
    Except PyErr (KSt × JVal) :=
  match colValues xs k with
  | .error e => .error e
  | .ok cvs =>
    if is_constant p.py_eq cvs then
      match p.compress_value st (cvs.headD .null) with
      | .error e => .error e
      | .ok (st1, c) => .ok (st1, .obj [("c", c), ("n", .int cvs.length)])
    else if is_sequential cvs then
      .ok (st, .obj [("s", cvs.headD .null),
                     ("d", pySubJ (cvs.getD 1 .null) (cvs.headD .null)),
                     ("n", .int cvs.length)])
    else if cvs.all isBoolJ && decide (3 ≤ cvs.length) then
      .ok (st, .str (pack_booleans (cvs.map boolOf)))
    else if cvs.all isNumJ && decide (3 ≤ cvs.length) then
      match pack_numbers cvs with
      | .error e => .error e
      | .ok s => .ok (st, .str s)
    else
      match stMapP p.compress_value st cvs with
      | .error e => .error e
      | .ok (st1, l) => .ok (st1, .arr l)

/-- Build every column, threading the key-dictionary state. -/
def colsFoldP (p : CFns) (xs : List JVal) :
    KSt → List String → Except PyErr (KSt × List JVal)
  | st, [] => .ok (st, [])
  | st, k :: rest =>
      match colFor p st xs k with
      | .error e => .error e
      | .ok (st1, col) =>
          match colsFoldP p xs st1 rest with
          | .error e => .error e
          | .ok (st2, cols) => .ok (st2, col :: cols)

/-- `[self._get_short_key(k) for k in keys]`. -/
def shortKeysFold : KSt → List String → KSt × List String
  | st, [] => (st, [])
  | st, k :: rest =>
      let p1 := get_short_key st k
      let p2 := shortKeysFold p1.1 rest
      (p2.1, p1.2 :: p2.2)

/-- `_compress_array` (lines 133-178): boolean constant/bit-pack, numeric
delta/constant/binary-pack, columnar transform for arrays of dicts with
one shared key set, else element-wise; failed guards fall through in the
Python order. -/
def compress_arrayP (p : CFns) (st : KSt) (xs : List JVal) :
    Except PyErr (KSt × JVal) :=
  if xs.isEmpty then .ok (st, .arr xs)
  else if xs.all isBoolJ && is_constant p.py_eq xs then
    .ok (st, .obj [("c", xs.headD .null), ("n", .int xs.length)])
  else if xs.all isBoolJ && decide (3 ≤ xs.length) then
    .ok (st, .str (pack_booleans (xs.map boolOf)))
  else if xs.all isNumJ && is_sequential xs then
    .ok (st, .obj [("s", xs.headD .null),
                   ("d", pySubJ (xs.getD 1 .null) (xs.headD .null)),
                   ("n", .int xs.length)])
  else if xs.all isNumJ && is_constant p.py_eq xs then
    .ok (st, .obj [("c", xs.headD .null), ("n", .int xs.length)])
  else if xs.all isNumJ && decide (3 ≤ xs.length) then
    match pack_numbers xs with
    | .error e => .error e
    | .ok s => .ok (st, .str s)
  else if xs.all isObjJ && sameKeySetAll xs then
    let keys := objKeys (xs.headD .null)
    let p1 := shortKeysFold st keys
    match colsFoldP p xs p1.1 keys with
    | .error e => .error e
    | .ok (st2, cols) =>
        .ok (st2, .obj [("a", .int 1), ("k", .arr (p1.2.map JVal.str)), ("d", .arr cols)])
  else
    match stMapP p.compress_value st xs with
    | .error e => .error e
    | .ok (st1, l) => .ok (st1, .arr l)

/-- `_compress_value` (lines 180-197): recurse into dicts and lists,
scalars pass through, long strings get a base64 substitution only when
strictly shorter. -/
def compress_valueP (p : CFns) (st : KSt) : JVal → Except PyErr (KSt × JVal)
  | .obj kvs =>
      match objFoldP p.compress_value st kvs with
      | .error e => .error e
      | .ok (st1, l) => .ok (st1, .obj l)
  | .arr xs => p.compress_array st xs
  | .str s =>
      if 20 < pyLen s then
        if (b64encodeBytes (utf8Encode s)).length < pyLen s then
          .ok (st, .str ("S" ++ b64encodeBytes (utf8Encode s)))
        else .ok (st, .str s)
      else .ok (st, .str s)
  | v => .ok (st, v)

/-- Python `==` on JSON values: numeric equality across bool/int/float,
structural on containers (dict comparison ignores order). -/
def py_eqP (pe : JVal → JVal → Bool) : JVal → JVal → Bool
  | .null, .null => true
  | .str a, .str b => a == b
  | .arr xs, .arr ys =>
      xs.length == ys.length && (xs.zip ys).all (fun pr => pe pr.1 pr.2)
  | .obj a, .obj b =>
      a.length == b.length &&
        a.all (fun kv =>
          match alook b kv.1 with
          | some w => pe kv.2 w
          | none => false)
  | x, y => isNumJ x && isNumJ y && (toQ0 x == toQ0 y)

def cStep (p : CFns) : CFns :=
  ⟨py_eqP p.py_eq, compress_valueP p, compress_arrayP p⟩

def cFns : Nat → CFns
  | 0 => cFail
  | gas + 1 => cStep (cFns gas)

/-- The envelope built by `compress`: `{"d": ..., "m": key_map}` with
`"m"` omitted when no key was seen. -/
def envelope (st : KSt) (cd : JVal) : JVal :=
  .obj (("d", cd) ::
    (if st.keyMap.isEmpty then []
     else [("m", .obj (st.keyMap.map (fun pr => (pr.1, JVal.str pr.2))))]))

/-- `JSONCompressor.compress`: reset the dictionary, compress, wrap. -/
def compress (gas : Nat) (v : JVal) : Except PyErr JVal :=
  match (cFns gas).compress_value ⟨[], 0⟩ v with
  | .error e => .error e
  | .ok (st, cd) => .ok (envelope st cd)

/-- The JSON value whose compact serialization `compress_json` returns:
the envelope when its text is strictly shorter, else the input itself. -/
def compress_json_val (gas : Nat) (v : JVal) : Except PyErr JVal :=
  match compress gas v with
  | .error e => .error e
  | .ok env =>
      .ok (if (dumpsF gas env).length < (dumpsF gas v).length then env else v)

/-- `compress_json` (lines 289-300): return the shorter of the compressed
envelope text and the plain compact text; ties keep the original. -/
def compress_json (gas : Nat) (v : JVal) : Except PyErr String :=
  match compress gas v with
  | .error e => .error e
  | .ok env =>
      .ok (if (dumpsF gas env).length < (dumpsF gas v).length
           then dumpsF gas env else dumpsF gas v)

end CR

namespace CR

/-- Python `i * d` with `i` an `int` from `range(...)`: numbers multiply,
sequences repeat, anything else raises `TypeError`. -/
def pyMulI (i : Nat) (d : JVal) : Except PyErr JVal :=
  match d with
  | .bool b => .ok (.int ((i : Int) * (if b then 1 else 0)))
  | .int n => .ok (.int ((i : Int) * n))
  | .float q => .ok (.float ((i : ℚ) * q))
  | .str t => .ok (.str (String.join (List.replicate i t)))
  | .arr l => .ok (.arr (List.replicate i l).flatten)
  | _ => .error .typeError

/-- Python `a + b`: numeric addition (`int` when both are ints),
string/list concatenation, else `TypeError`. -/
def pyAddV (a b : JVal) : Except PyErr JVal :=
  match a, b with
  | .str x, .str y => .ok (.str (x ++ y))
  | .arr x, .arr y => .ok (.arr (x ++ y))
  | x, y =>
      if isIntLike x && isIntLike y then .ok (.int (ival x + ival y))
      else if isNumJ x && isNumJ y then .ok (.float (toQ0 x + toQ0 y))
      else .error .typeError

/-- `range(n)` / `[_] * n` demand an integer; floats raise `TypeError`. -/
def pyIndexE (v : JVal) : Except PyErr Int :=
  if isIntLike v then .ok (ival v) else .error .typeError

/-- `value.get("a") == 1`. -/
def eqOne (v : JVal) : Bool := isNumJ v && (toQ0 v == 1)

/-- `key_map.get(k, k)`. -/
def kmGet (km : List (String × String)) (k : String) : String := (alook km k).getD k

/-- `[value["s"] + i * value["d"] for i in range(n)]`. -/
def genDelta (s d : JVal) (cnt : Nat) : Except PyErr (List JVal) :=
  exMap
    (fun i =>
      match pyMulI i d with
      | .error e => .error e
      | .ok m => pyAddV s m)
    (List.range cnt)

/-- One fuel level of the recursive decompressor. -/
structure DFns where
  decompress_value : List (String × String) → JVal → Except PyErr JVal
  decompress_array : List (String × String) → List (String × JVal) → Except PyErr JVal

def dFail : DFns := ⟨fun _ _ => .error .fuelOut, fun _ _ => .error .fuelOut⟩

/-- `_decompress_object`: restore keys through the inverse dictionary and
decompress each value. -/
def decompress_objectP (p : DFns) (km : List (String × String))
    (kvs : List (String × JVal)) : Except PyErr JVal :=
  match exMap (fun kv => (p.decompress_value km kv.2).map (fun w => (kmGet km kv.1, w))) kvs with
  | .error e => .error e
  | .ok l => .ok (.obj l)

/-- `_decompress_value` (lines 220-240): constant record, delta record,
columnar record, generic dict, list, tagged string (leading S/T or
B/H/I/D), else pass through.  An empty string reaches `value[0]` and
raises `IndexError`. -/
def decompress_valueP (p : DFns) (km : List (String × String)) :
    JVal → Except PyErr JVal
  | .obj kvs =>
      if (alook kvs "c").isSome && (alook kvs "n").isSome then
        match pyIndexE ((alook kvs "n").getD .null) with
        | .error e => .error e
        | .ok n =>
            if n ≤ 0 then .ok (.arr [])
            else
              match p.decompress_value km ((alook kvs "c").getD .null) with
              | .error e => .error e
              | .ok x => .ok (.arr (List.replicate n.toNat x))
      else if (alook kvs "s").isSome && (alook kvs "d").isSome && (alook kvs "n").isSome then
        match pyIndexE ((alook kvs "n").getD .null) with
        | .error e => .error e
        | .ok n =>
            match genDelta ((alook kvs "s").getD .null) ((alook kvs "d").getD .null) n.toNat with
            | .error e => .error e
            | .ok l => .ok (.arr l)
      else
        match alook kvs "a" with
        | some av => if eqOne av then p.decompress_array km kvs else decompress_objectP p km kvs
        | none => decompress_objectP p km kvs
  | .arr xs => (exMap (p.decompress_value km) xs).map JVal.arr
  | .str s =>
      -- `value.startswith("S")` on a nonempty string is a test of its
      -- first character; the empty string fails both `startswith` tests
      -- and reaches `value[0]`, raising `IndexError`.
      match s.data with
      | [] => .error .indexError
      | c :: rest =>
          if c = 'S' then
            match b64decodeStr (String.mk rest) with
            | .error e => .error e
            | .ok bytes =>
                match utf8Decode bytes with
                | some t => .ok (.str t)
                | none => .error .unicodeError
          else if c = 'T' then
            match unpack_booleans s with
            | .error e => .error e
            | .ok bs => .ok (.arr (bs.map JVal.bool))
          else if c = 'B' || c = 'H' || c = 'I' || c = 'D' then
            match unpack_numbers s with
            | .error e => .error e
            | .ok l => .ok (.arr l)
          else .ok (.str s)
  | v => .ok v

/-- Expand one column of a columnar record (lines 248-259): constant and
delta records expand, tagged strings decode, a dict with neither "c" nor
"s" is silently skipped (the Python `if/elif` appends nothing). -/
def expandCol (p : DFns) (km : List (String × String)) (col : JVal) :
    Except PyErr (Option JVal) :=
  match col with
  | .obj ckvs =>
      if (alook ckvs "c").isSome then
        match p.decompress_value km ((alook ckvs "c").getD .null) with
        | .error e => .error e
        | .ok val =>
            match alook ckvs "n" with
            | none => .error .keyError
            | some nv =>
                match pyIndexE nv with
                | .error e => .error e
                | .ok n => .ok (some (.arr (List.replicate n.toNat val)))
      else if (alook ckvs "s").isSome then
        match alook ckvs "d" with
        | none => .error .keyError
        | some dv =>
            match alook ckvs "n" with
            | none => .error .keyError
            | some nv =>
                match pyIndexE nv with
                | .error e => .error e
                | .ok n =>
                    match genDelta ((alook ckvs "s").getD .null) dv n.toNat with
                    | .error e => .error e
                    | .ok l => .ok (some (.arr l))
      else .ok none
  | .str s =>
      match s.data with
      | [] => .error .indexError
      | c :: _ =>
          if c = 'B' || c = 'H' || c = 'I' || c = 'D' || c = 'T' then
            match p.decompress_value km col with
            | .error e => .error e
            | .ok r => .ok (some r)
          else .ok (some col)
  | _ => .ok (some col)

/-- Python `len` of a cell container. -/
def pyLenE : JVal → Except PyErr Nat
  | .arr l => .ok l.length
  | .str s => .ok (pyLen s)
  | .obj kvs => .ok kvs.length
  | _ => .error .typeError

/-- `expanded_columns[j][i]`. -/
def cellAt : JVal → Nat → Except PyErr JVal
  | .arr l, i =>
      match l.get? i with
      | some v => .ok v
      | none => .error .indexError
  | .str s, i =>
      match s.data.get? i with
      | some c => .ok (.str (String.mk [c]))
      | none => .error .indexError
  | .obj _, _ => .error .keyError
  | _, _ => .error .typeError

/-- `_decompress_array` (lines 242-272): expand every column, then
transpose back into per-row dicts, decompressing each cell again and
restoring keys through the inverse dictionary. -/
def decompress_arrayP (p : DFns) (km : List (String × String))
    (kvs : List (String × JVal)) : Except PyErr JVal :=
  match alook kvs "k" with
  | none => .error .keyError
  | some skv =>
    match alook kvs "d" with
    | none => .error .keyError
    | some colsv =>
      match skv, colsv with
      | .arr skl, .arr cols =>
          match exMap (fun x => match x with | JVal.str s => Except.ok s | _ => Except.error PyErr.typeError) skl with
          | .error e => .error e
          | .ok sks =>
            match exMap (expandCol p km) cols with
            | .error e => .error e
            | .ok opts =>
              let expanded := opts.reduceOption
              match expanded.head? with
              | none => .ok (.arr [])
              | some c0 =>
                match pyLenE c0 with
                | .error e => .error e
                | .ok numRows =>
                    (exMap
                      (fun i =>
                        (exMap
                          (fun jsk =>
                            match expanded.get? jsk.1 with
                            | none => .error .indexError
                            | some colv =>
                                match cellAt colv i with
                                | .error e => .error e
                                | .ok cell =>
                                    (p.decompress_value km cell).map
                                      (fun w => (kmGet km jsk.2, w)))
                          sks.enum).map JVal.obj)
                      (List.range numRows)).map JVal.arr
      | _, _ => .error .typeError

def dStep (p : DFns) : DFns := ⟨decompress_valueP p, decompress_arrayP p⟩

def dFns : Nat → DFns
  | 0 => dFail
  | gas + 1 => dStep (dFns gas)

/-- `JSONCompressor.decompress`: read `"m"` (later duplicates win in the
inverting dict comprehension; a short code that is not a string can never
match a parsed JSON key and is dropped), then decompress `"d"`. -/
def decompress (gas : Nat) (kvs : List (String × JVal)) : Except PyErr JVal :=
  match
    (match alook kvs "m" with
     | none => Except.ok ([] : List (String × String))
     | some (.obj mp) =>
         Except.ok (mp.filterMap (fun (kv : String × JVal) =>
           match kv.2 with
           | JVal.str c => some (c, kv.1)
           | _ => none)).reverse
     | some _ => Except.error PyErr.typeError) with
  | .error e => .error e
  | .ok rev =>
      match alook kvs "d" with
      | none => .error .keyError
      | some dv => (dFns gas).decompress_value rev dv

/-- `decompress_json` (lines 303-311) after `json.loads`: any top-level
dict carrying a "d" field is treated as a compression envelope; every
other value is returned unchanged. -/
def decompress_json_parsed (gas : Nat) (v : JVal) : Except PyErr JVal :=
  match v with
  | .obj kvs => if (alook kvs "d").isSome then decompress gas kvs else .ok v
  | _ => .ok v

/-- `decompress_json (compress_json v)` on parsed values
(`json.loads (json.dumps x) = x` for the values involved). -/
def roundtrip (gas : Nat) (v : JVal) : Except PyErr JVal :=
  match compress_json_val gas v with
  | .error e => .error e
  | .ok w => decompress_json_parsed gas w

end CR

namespace JC

/-- `self.min_key_length = 6`. -/
def min_key_length : Nat := 6

/-- `_get_short_key` of `json_compressor.py`: keys at or below the
threshold are returned unchanged and never occupy a dictionary slot. -/
def get_short_key (st : KSt) (k : String) : KSt × String :=
  if k.length ≤ min_key_length then (st, k)
  else
    match alook st.keyMap k with
    | some sk => (st, sk)
    | none =>
        (⟨st.keyMap ++ [(k, encode_base62 st.counter)], st.counter + 1⟩,
         encode_base62 st.counter)

/-- One fuel level of the `json_compressor.py` recursive compressor
(total code; `none` only marks exhausted model fuel). -/
structure JFns where
  compress_value : KSt → JVal → Option (KSt × JVal)
  compress_array : KSt → List JVal → Option (KSt × JVal)

def jFail : JFns := ⟨fun _ _ => none, fun _ _ => none⟩

def stMapJ (f : KSt → JVal → Option (KSt × JVal)) :
    KSt → List JVal → Option (KSt × List JVal)
  | st, [] => some (st, [])
  | st, v :: rest =>
      match f st v with
      | none => none
      | some (st1, w) =>
          match stMapJ f st1 rest with
          | none => none
          | some (st2, ws) => some (st2, w :: ws)

/-- `_compress_object`: substitute keys (threshold applies) and compress
values in insertion order. -/
def objFoldJ (f : KSt → JVal → Option (KSt × JVal)) :
    KSt → List (String × JVal) → Option (KSt × List (String × JVal))
  | st, [] => some (st, [])
  | st, (k, v) :: rest =>
      match f (get_short_key st k).1 v with
      | none => none
      | some (st2, w) =>
          match objFoldJ f st2 rest with
          | none => none
          | some (st3, l) => some (st3, ((get_short_key st k).2, w) :: l)

def shortKeysFoldJ : KSt → List String → KSt × List String
  | st, [] => (st, [])
  | st, k :: rest =>
      let p1 := get_short_key st k
      let p2 := shortKeysFoldJ p1.1 rest
      (p2.1, p1.2 :: p2.2)

/-- Compress the cells of one row (`item[k]` for each key, in order). -/
def cellRowJ (f : KSt → JVal → Option (KSt × JVal)) (item : JVal) :
    KSt → List String → Option (KSt × List JVal)
  | st, [] => some (st, [])
  | st, k :: rest =>
      match item with
      | .obj kvs =>
          match alook kvs k with
          | some v =>
              match f st v with
              | none => none
              | some (st1, w) =>
                  match cellRowJ f item st1 rest with
                  | none => none
                  | some (st2, ws) => some (st2, w :: ws)
          | none => none
      | _ => none

/-- Row-major cell compression, the order of the Python nested loops
filling the columns. -/
def rowFoldJ (f : KSt → JVal → Option (KSt × JVal)) (keys : List String) :
    KSt → List JVal → Option (KSt × List (List JVal))
  | st, [] => some (st, [])
  | st, item :: rest =>
      match cellRowJ f item st keys with
      | none => none
      | some (st1, row) =>
          match rowFoldJ f keys st1 rest with
          | none => none
          | some (st2, rows) => some (st2, row :: rows)

/-- `[columns[sk] for sk in short_keys]`: transpose the rows back into
one list per key. -/
def transposeCols (k : Nat) (rows : List (List JVal)) : List (List JVal) :=
  (List.range k).map (fun j => rows.map (fun r => r.getD j .null))

/-- `_compress_array` of `json_compressor.py` (lines 51-75): the columnar
transform fires only for ≥ 3 dicts sharing one key set; otherwise
element-wise compression. -/
def compress_arrayP (p : JFns) (st : KSt) (xs : List JVal) : Option (KSt × JVal) :=
  if xs.isEmpty then some (st, .arr xs)
  else if xs.all isObjJ && sameKeySetAll xs && decide (3 ≤ xs.length) then
    let keys := objKeys (xs.headD .null)
    let p1 := shortKeysFoldJ st keys
    match rowFoldJ p.compress_value keys p1.1 xs with
    | none => none
    | some (st2, rows) =>
        some (st2, .obj [("t", .str "a"), ("k", .arr (p1.2.map JVal.str)),
                         ("d", .arr ((transposeCols keys.length rows).map JVal.arr))])
  else
    match stMapJ p.compress_value st xs with
    | none => none
    | some (st1, l) => some (st1, .arr l)

/-- `_compress_value` of `json_compressor.py` (lines 77-92): recurse into
dicts and lists; every scalar, including every string, passes through. -/
def compress_valueP (p : JFns) (st : KSt) : JVal → Option (KSt × JVal)
  | .obj kvs =>
      match objFoldJ p.compress_value st kvs with
      | none => none
      | some (st1, l) => some (st1, .obj l)
  | .arr xs => p.compress_array st xs
  | v => some (st, v)

def jStep (p : JFns) : JFns := ⟨compress_valueP p, compress_arrayP p⟩

def jFns : Nat → JFns
  | 0 => jFail
  | gas + 1 => jStep (jFns gas)

/-- `JSONCompressor.compress` of `json_compressor.py`; the envelope shape
`{"d": ..., "m": ...}` is the one `CR.envelope` builds. -/
def compress (gas : Nat) (v : JVal) : Option (KSt × JVal) :=
  match (jFns gas).compress_value ⟨[], 0⟩ v with
  | none => none
  | some (st, cd) => some (st, CR.envelope st cd)

/-- `compress_json` of `json_compressor.py` (lines 178-199): return the
shorter text; ties keep the plain serialization. -/
def compress_json (gas : Nat) (v : JVal) : Option String :=
  match compress gas v with
  | none => none
  | some (_, env) =>
      some (if (dumpsF gas env).length < (dumpsF gas v).length
            then dumpsF gas env else dumpsF gas v)

end JC

namespace V26

/-- The string branch of `_c` in `versions/v26.py` (lines 192-197),
character-identical to the branch in `compressed_readable.py`. -/
def cStr (s : String) : JVal :=
  if 20 < pyLen s then
    if (b64encodeBytes (utf8Encode s)).length < pyLen s then
      .str ("S" ++ b64encodeBytes (utf8Encode s))
    else .str s
  else .str s

end V26

/-- Does a parsed top-level value dispatch into the envelope branch of
`decompress_json`? -/
def topHasD : JVal → Bool
  | .obj kvs => (alook kvs "d").isSome
  | _ => false

/-- The columnar marker of `compressed_readable.py`: field `"a"` equal
to 1. -/
def columnarMarkCR : JVal → Bool
  | .obj kvs =>
      match alook kvs "a" with
      | some (.int 1) => true
      | _ => false
  | _ => false

/-- The columnar marker of `json_compressor.py`: field `"t"` equal
to "a". -/
def columnarMarkJC : JVal → Bool
  | .obj kvs =>
      match alook kvs "t" with
      | some (.str t) => t == "a"
      | _ => false
  | _ => false

/-- Leading character of a successfully packed payload. -/
def tagOf (e : Except PyErr String) : Option Char :=
  match e with
  | .ok s => s.data.head?
  | .error _ => none

/-- A 24-element non-constant, non-arithmetic int8 array; binary packing
makes its envelope strictly shorter than the plain serialization. -/
def c4ints : List JVal := ((List.replicate 12 [(100 : Int), 27]).flatten).map JVal.int

/-- Input whose envelope carries the untagged passthrough string
"BAAAA" next to a binary-packed numeric array. -/
def c4data : JVal := .arr [.str "BAAAA", .arr c4ints]

/-- What the decoder actually returns for `c4data`'s envelope: the
passthrough "BAAAA" has been misread as an 8-bit binary-packed buffer. -/
def c4decoded : JVal := .arr [.arr [.int 0, .int 0, .int 0], .arr c4ints]

/-- Key-dictionary invariant of `json_compressor.py`: only keys longer
than the threshold ever occupy a slot. -/
def JC.keyInv (st : KSt) : Prop := ∀ p ∈ st.keyMap, JC.min_key_length < p.1.length

/-! ## Helper lemmas -/

theorem b64encodeGo_length (bs : List Nat) :
    (b64encodeGo bs).length = 4 * ((bs.length + 2) / 3) := by
  induction bs using b64encodeGo.induct with
  | case1 => rfl
  | case2 a => simp [b64encodeGo]
  | case3 a b => simp [b64encodeGo]
  | case4 a b c rest ih =>
      simp only [b64encodeGo, List.length_cons, ih]
      omega

theorem utf8EncodeChar_length_pos (c : Char) : 1 ≤ (utf8EncodeChar c).length := by
  show 1 ≤ (if c.toNat < 128 then [c.toNat]
    else if c.toNat < 2048 then [192 + c.toNat / 64, 128 + c.toNat % 64]
    else if c.toNat < 65536 then
      [224 + c.toNat / 4096, 128 + c.toNat / 64 % 64, 128 + c.toNat % 64]
    else [240 + c.toNat / 262144, 128 + c.toNat / 4096 % 64,
      128 + c.toNat / 64 % 64, 128 + c.toNat % 64]).length
  split_ifs <;> simp

theorem utf8Encode_ge (s : String) : pyLen s ≤ (utf8Encode s).length := by
  show s.data.length ≤ (s.data.foldr (fun c acc => utf8EncodeChar c ++ acc) []).length
  induction s.data with
  | nil => simp
  | cons c t ih =>
      simp only [List.foldr_cons, List.length_append, List.length_cons]
      have := utf8EncodeChar_length_pos c
      omega

/-- The base64 text of a string's UTF-8 bytes is never strictly shorter
than the string (4·⌈bytes/3⌉ ≥ bytes ≥ characters). -/
theorem b64_never_shorter (s : String) :
    ¬ (b64encodeBytes (utf8Encode s)).length < pyLen s := by
  have h1 := utf8Encode_ge s
  have h2 : (b64encodeBytes (utf8Encode s)).length
      = 4 * (((utf8Encode s).length + 2) / 3) := by
    show (String.mk (b64encodeGo (utf8Encode s))).length = _
    show (b64encodeGo (utf8Encode s)).length = _
    exact b64encodeGo_length _
  omega

/-! ## C1 -/

/-- C1: the claim states `decode(encode(v)) == v` for every JSON value.
The code violates it: `{"d": "x"}` is returned verbatim by the size
fallback, and `decompress_json` then mistakes this user data for a
compression envelope, returning `"x"` instead of `{"d": "x"}`. -/
theorem c1_roundtrip_breaks_on_envelope_shaped_input :
    CR.roundtrip 32 (JVal.obj [("d", JVal.str "x")]) = .ok (JVal.str "x") ∧
    JVal.str "x" ≠ JVal.obj [("d", JVal.str "x")] :=
  ⟨rfl, fun h => JVal.noConfusion h⟩

/-! ## C3 -/

/-- C3: the claim states that encoding never fails and that an
all-integer array with elements beyond 32-bit range falls back to 64-bit
float packing.  In the code, `_pack_numbers` reaches
`struct.pack('{n}i', ...)` for every all-integer array regardless of
magnitude, and `struct.pack` raises `struct.error` for 2^32: encoding
`[4294967296, 0, 1, 5]` raises instead of returning text. -/
theorem c3_encode_raises_on_int_array_beyond_32bit :
    CR.compress_json 32 (JVal.arr [JVal.int 4294967296, JVal.int 0, JVal.int 1, JVal.int 5])
      = .error .structError := rfl

/-! ## C5 -/

/-- C5: `decompress_json` returns the parsed value unchanged exactly when
it is not a dict or has no "d" field; every top-level dict with a "d"
field — including user data emitted verbatim by the size fallback — is
processed as a compression envelope. -/
theorem c5_decode_dispatch_on_top_level_d_field :
    (∀ gas v,
      (topHasD v = false → CR.decompress_json_parsed gas v = .ok v) ∧
      (∀ kvs, v = JVal.obj kvs → topHasD v = true →
        CR.decompress_json_parsed gas v = CR.decompress gas kvs)) ∧
    CR.decompress_json_parsed 9 (JVal.obj [("d", JVal.int 7)]) = .ok (JVal.int 7) := by
  refine ⟨fun gas v => ⟨?_, ?_⟩, rfl⟩
  · intro h
    cases v with
    | obj kvs =>
        simp only [topHasD] at h
        simp only [CR.decompress_json_parsed, h]
        rfl
    | null => rfl
    | bool b => rfl
    | int n => rfl
    | float q => rfl
    | str s => rfl
    | arr xs => rfl
  · intro kvs hv h
    subst hv
    simp only [topHasD] at h
    simp only [CR.decompress_json_parsed, h]
    rfl

/-- Witness for C5 at the concrete non-envelope input `3`. -/
theorem c5_witness : CR.decompress_json_parsed 7 (JVal.int 3) = .ok (JVal.int 3) :=
  (c5_decode_dispatch_on_top_level_d_field.1 7 (JVal.int 3)).1 rfl

/-! ## C2 -/

/-- C2: whatever text `compress_json` returns (in either module) is never
longer than the plain compact serialization, and whenever the envelope
text is not strictly shorter the returned text is exactly the plain
serialization — ties favor the uncompressed form. -/
theorem c2_compress_json_never_longer :
    (∀ gas v s, CR.compress_json gas v = .ok s →
      s.length ≤ (dumpsF gas v).length ∧
      (∀ env, CR.compress gas v = .ok env →
        ¬ (dumpsF gas env).length < (dumpsF gas v).length → s = dumpsF gas v)) ∧
    (∀ gas v s, JC.compress_json gas v = some s →
      s.length ≤ (dumpsF gas v).length ∧
      (∀ st2 env, JC.compress gas v = some (st2, env) →
        ¬ (dumpsF gas env).length < (dumpsF gas v).length → s = dumpsF gas v)) := by
  constructor
  · intro gas v s h
    unfold CR.compress_json at h
    cases hc : CR.compress gas v with
    | error e => rw [hc] at h; exact absurd h (by simp)
    | ok env =>
        rw [hc] at h
        have hs : (if (dumpsF gas env).length < (dumpsF gas v).length
                   then dumpsF gas env else dumpsF gas v) = s := by
          simpa using h
        constructor
        · by_cases hlt : (dumpsF gas env).length < (dumpsF gas v).length
          · rw [if_pos hlt] at hs; rw [← hs]; exact Nat.le_of_lt hlt
          · rw [if_neg hlt] at hs; rw [← hs]
        · intro env2 hc2 hnlt
          have he : env = env2 := by simpa using hc2
          subst he
          rw [if_neg hnlt] at hs
          exact hs.symm
  · intro gas v s h
    unfold JC.compress_json at h
    cases hc : JC.compress gas v with
    | none => rw [hc] at h; exact absurd h (by simp)
    | some p =>
        rw [hc] at h
        have hs : (if (dumpsF gas p.2).length < (dumpsF gas v).length
                   then dumpsF gas p.2 else dumpsF gas v) = s := by
          simpa using h
        constructor
        · by_cases hlt : (dumpsF gas p.2).length < (dumpsF gas v).length
          · rw [if_pos hlt] at hs; rw [← hs]; exact Nat.le_of_lt hlt
          · rw [if_neg hlt] at hs; rw [← hs]
        · intro st2 env2 hc2 hnlt
          have he : p = (st2, env2) := by simpa using hc2
          subst he
          rw [if_neg hnlt] at hs
          exact hs.symm

/-- Witness for C2: on `{"a":1}` the compressor returns exactly the plain
serialization, which is no longer than itself. -/
theorem c2_witness :
    ("\x7b\"a\":1\x7d" : String).length
      ≤ (dumpsF 32 (JVal.obj [("a", JVal.int 1)])).length :=
  (c2_compress_json_never_longer.1 32 (JVal.obj [("a", JVal.int 1)]) "\x7b\"a\":1\x7d" rfl).1

/-! ## C10 -/

/-- C10: the encoder emits every string unchanged.  The base64
substitution branch for strings longer than 20 characters never fires,
because base64 over the UTF-8 bytes (4·⌈bytes/3⌉ characters) is never
strictly shorter than the character count; the identical branch of
`versions/v26.py` is inert for the same reason. -/
theorem c10_strings_always_pass_through :
    (∀ gas st s, (CR.cFns (gas + 1)).compress_value st (JVal.str s)
        = .ok (st, JVal.str s)) ∧
    (∀ s, V26.cStr s = JVal.str s) := by
  constructor
  · intro gas st s
    show CR.compress_valueP (CR.cFns gas) st (JVal.str s) = _
    simp only [CR.compress_valueP]
    by_cases h : 20 < pyLen s
    · rw [if_pos h, if_neg (b64_never_shorter s)]
    · rw [if_neg h]
  · intro s
    unfold V26.cStr
    by_cases h : 20 < pyLen s
    · rw [if_pos h, if_neg (b64_never_shorter s)]
    · rw [if_neg h]

/-! ## C4 -/

theorem isObj_excl (v : JVal) (h : isObjJ v = true) :
    isBoolJ v = false ∧ isNumJ v = false := by
  cases v <;> simp [isObjJ, isBoolJ, isNumJ] at h ⊢

/-- C4 counterexample: the encoder emits the 5-character string "BAAAA"
as an unchanged passthrough scalar, yet inside `c4data`'s envelope
(which wins the size comparison thanks to the binary-packed sibling
array) the decoder's leading-character dispatch misreads it as an 8-bit
packed buffer and returns `[0, 0, 0]`. -/
theorem c4_counterexample_tagged_passthrough_misread :
    (CR.cFns 9).compress_value ⟨[], 0⟩ (JVal.str "BAAAA")
        = .ok (⟨[], 0⟩, JVal.str "BAAAA") ∧
    (CR.dFns 9).decompress_value [] (JVal.str "BAAAA")
        = .ok (JVal.arr [JVal.int 0, JVal.int 0, JVal.int 0]) ∧
    CR.roundtrip 40 c4data = .ok c4decoded ∧
    c4decoded ≠ c4data := by
  refine ⟨rfl, rfl, rfl, ?_⟩
  intro h
  simp only [c4decoded, c4data] at h
  injection h with h1
  injection h1 with h2 h3
  exact JVal.noConfusion h2

/-- C4 amended: the decoder's tag dispatch fires exactly on a leading
'S', 'T', 'B', 'H', 'I' or 'D'; a nonempty passthrough string whose
first character is none of these is returned unchanged by
`_decompress_value`.  (A passthrough string that does begin with a tag
character is misread, as the counterexample shows.) -/
theorem c4_amended_untagged_passthrough_decodes_to_itself :
    ∀ gas km s c rest, s.data = c :: rest →
      c ≠ 'S' → c ≠ 'T' → c ≠ 'B' → c ≠ 'H' → c ≠ 'I' → c ≠ 'D' →
      (CR.dFns (gas + 1)).decompress_value km (JVal.str s) = .ok (JVal.str s) := by
  intro gas km s c rest hd hS hT hB hH hI hD
  show CR.decompress_valueP (CR.dFns gas) km (JVal.str s) = _
  simp only [CR.decompress_valueP, hd]
  simp [hS, hT, hB, hH, hI, hD]

/-- Witness for the amended C4 at the concrete string "hello". -/
theorem c4_witness :
    (CR.dFns 1).decompress_value [] (JVal.str "hello") = .ok (JVal.str "hello") :=
  c4_amended_untagged_passthrough_decodes_to_itself 0 [] "hello" 'h' ['e', 'l', 'l', 'o'] rfl
    (by decide) (by decide) (by decide) (by decide) (by decide) (by decide)

/-! ## C6 -/

/-- C6 counterexample: in `compressed_readable.py` an array of exactly 2
objects with identical key sets does produce the columnar marker
`"a": 1` — the claim says it must not. -/
theorem c6_counterexample_two_objects_get_columnar_marker :
    (CR.cFns 9).compress_array ⟨[], 0⟩
        [JVal.obj [("x", JVal.int 1)], JVal.obj [("x", JVal.int 2)]]
      = .ok (⟨[("x", "0")], 1⟩,
          JVal.obj [("a", JVal.int 1), ("k", JVal.arr [JVal.str "0"]),
            ("d", JVal.arr [JVal.arr [JVal.int 1, JVal.int 2]])]) ∧
    columnarMarkCR (JVal.obj [("a", JVal.int 1), ("k", JVal.arr [JVal.str "0"]),
        ("d", JVal.arr [JVal.arr [JVal.int 1, JVal.int 2]])]) = true :=
  ⟨rfl, rfl⟩

/-- C6 amended: arrays of ≥ 3 objects with one shared key set produce
the columnar marker in both compressors; `json_compressor.py` never
emits its marker for an array of length 2, while `compressed_readable.py`
applies the columnar transform to every nonempty all-object
shared-key-set array, including length 2. -/
theorem c6_amended_columnar_trigger :
    (∀ gas st xs st2 out, xs ≠ [] → xs.all isObjJ = true → sameKeySetAll xs = true →
      (CR.cFns gas).compress_array st xs = .ok (st2, out) → columnarMarkCR out = true) ∧
    (∀ gas st xs st2 out, 3 ≤ xs.length → xs.all isObjJ = true → sameKeySetAll xs = true →
      (JC.jFns gas).compress_array st xs = some (st2, out) → columnarMarkJC out = true) ∧
    (∀ gas st xs st2 out, xs.length = 2 →
      (JC.jFns gas).compress_array st xs = some (st2, out) → columnarMarkJC out = false) := by
  refine ⟨?_, ?_, ?_⟩
  · intro gas st xs st2 out hne hobj hsame hok
    cases gas with
    | zero => simp [CR.cFns, CR.cFail] at hok
    | succ g =>
        have hok2 : CR.compress_arrayP (CR.cFns g) st xs = .ok (st2, out) := hok
        obtain ⟨x, t, rfl⟩ := List.exists_cons_of_ne_nil hne
        have hx : isObjJ x = true := by
          rw [List.all_cons, Bool.and_eq_true] at hobj
          exact hobj.1
        have hb : (x :: t).all isBoolJ = false := by
          rw [List.all_cons, (isObj_excl x hx).1, Bool.false_and]
        have hn : (x :: t).all isNumJ = false := by
          rw [List.all_cons, (isObj_excl x hx).2, Bool.false_and]
        unfold CR.compress_arrayP at hok2
        simp only [List.isEmpty_cons, hb, hn, hobj, hsame, Bool.false_and, Bool.true_and,
          Bool.false_eq_true, if_false, Bool.and_self, if_true] at hok2
        cases hcf : CR.colsFoldP (CR.cFns g) (x :: t)
            (CR.shortKeysFold st (objKeys ((x :: t).headD JVal.null))).1
            (objKeys ((x :: t).headD JVal.null)) with
        | error e => rw [hcf] at hok2; simp at hok2
        | ok pr =>
            rw [hcf] at hok2
            obtain ⟨st3, cols⟩ := pr
            simp only [Except.ok.injEq, Prod.mk.injEq] at hok2
            rw [← hok2.2]
            rfl
  · intro gas st xs st2 out h3 hobj hsame hok
    cases gas with
    | zero => simp [JC.jFns, JC.jFail] at hok
    | succ g =>
        have hok2 : JC.compress_arrayP (JC.jFns g) st xs = some (st2, out) := hok
        have hemp : xs.isEmpty = false := by
          cases xs with
          | nil => simp at h3
          | cons y ys => rfl
        have hcond : (xs.all isObjJ && sameKeySetAll xs && decide (3 ≤ xs.length)) = true := by
          simp [hobj, hsame, h3]
        unfold JC.compress_arrayP at hok2
        simp only [hemp, hcond, Bool.false_eq_true, if_false, if_true] at hok2
        cases hrf : JC.rowFoldJ (JC.jFns g).compress_value (objKeys (xs.headD JVal.null))
            (JC.shortKeysFoldJ st (objKeys (xs.headD JVal.null))).1 xs with
        | none => rw [hrf] at hok2; simp at hok2
        | some pr =>
            rw [hrf] at hok2
            obtain ⟨st3, rows⟩ := pr
            simp only [Option.some.injEq, Prod.mk.injEq] at hok2
            rw [← hok2.2]
            rfl
  · intro gas st xs st2 out hlen hok
    cases gas with
    | zero => simp [JC.jFns, JC.jFail] at hok
    | succ g =>
        have hok2 : JC.compress_arrayP (JC.jFns g) st xs = some (st2, out) := hok
        have hemp : xs.isEmpty = false := by
          cases xs with
          | nil => simp at hlen
          | cons y ys => rfl
        have hcond : (xs.all isObjJ && sameKeySetAll xs && decide (3 ≤ xs.length)) = false := by
          rw [hlen]
          simp
        unfold JC.compress_arrayP at hok2
        simp only [hemp, hcond, Bool.false_eq_true, if_false] at hok2
        cases hsm : JC.stMapJ (JC.jFns g).compress_value st xs with
        | none => rw [hsm] at hok2; simp at hok2
        | some pr =>
            rw [hsm] at hok2
            obtain ⟨st3, l⟩ := pr
            simp only [Option.some.injEq, Prod.mk.injEq] at hok2
            rw [← hok2.2]
            rfl

/-- Witness for the amended C6: three one-key objects go through the
columnar path of `compressed_readable.py`. -/
theorem c6_witness :
    columnarMarkCR (JVal.obj [("a", JVal.int 1), ("k", JVal.arr [JVal.str "0"]),
      ("d", JVal.arr [JVal.obj [("s", JVal.int 1), ("d", JVal.int 1), ("n", JVal.int 3)]])])
      = true :=
  c6_amended_columnar_trigger.1 9 ⟨[], 0⟩
    [JVal.obj [("x", JVal.int 1)], JVal.obj [("x", JVal.int 2)], JVal.obj [("x", JVal.int 3)]]
    ⟨[("x", "0")], 1⟩
    (JVal.obj [("a", JVal.int 1), ("k", JVal.arr [JVal.str "0"]),
      ("d", JVal.arr [JVal.obj [("s", JVal.int 1), ("d", JVal.int 1), ("n", JVal.int 3)]])])
    (by simp) rfl rfl rfl

/-! ## C7 -/

theorem alook_append_isSome {α : Type} (l : List (String × α)) (k : String) (v : α) :
    (alook (l ++ [(k, v)]) k).isSome = true := by
  induction l with
  | nil => simp [alook]
  | cons p rest ih =>
      obtain ⟨k', v'⟩ := p
      by_cases h : k' = k
      · simp [alook, h]
      · simp [alook, h, ih]

theorem jc_gsk_keyInv (st : KSt) (k : String) (h : JC.keyInv st) :
    JC.keyInv (JC.get_short_key st k).1 := by
  unfold JC.get_short_key
  by_cases hl : k.length ≤ JC.min_key_length
  · rw [if_pos hl]; exact h
  · rw [if_neg hl]
    cases ha : alook st.keyMap k with
    | some sk => exact h
    | none =>
        intro p hp
        rw [List.mem_append] at hp
        cases hp with
        | inl hin => exact h p hin
        | inr hnew =>
            rw [List.mem_singleton] at hnew
            rw [hnew]
            show JC.min_key_length < k.length
            omega

theorem jc_shortKeysFoldJ_keyInv :
    ∀ keys st, JC.keyInv st → JC.keyInv (JC.shortKeysFoldJ st keys).1 := by
  intro keys
  induction keys with
  | nil => intro st h; exact h
  | cons k rest ih =>
      intro st h
      show JC.keyInv (JC.shortKeysFoldJ (JC.get_short_key st k).1 rest).1
      exact ih _ (jc_gsk_keyInv st k h)

theorem jc_stMapJ_keyInv (f : KSt → JVal → Option (KSt × JVal))
    (hf : ∀ st v r, JC.keyInv st → f st v = some r → JC.keyInv r.1) :
    ∀ l st r, JC.keyInv st → JC.stMapJ f st l = some r → JC.keyInv r.1 := by
  intro l
  induction l with
  | nil =>
      intro st r h hr
      simp only [JC.stMapJ, Option.some.injEq] at hr
      rw [← hr]; exact h
  | cons v rest ih =>
      intro st r h hr
      simp only [JC.stMapJ] at hr
      split at hr
      · exact absurd hr (by simp)
      · rename_i st1 w hfv
        split at hr
        · exact absurd hr (by simp)
        · rename_i st2 ws hrest
          simp only [Option.some.injEq] at hr
          rw [← hr]
          exact ih st1 (st2, ws) (hf st v (st1, w) h hfv) hrest

theorem jc_objFoldJ_keyInv (f : KSt → JVal → Option (KSt × JVal))
    (hf : ∀ st v r, JC.keyInv st → f st v = some r → JC.keyInv r.1) :
    ∀ l st r, JC.keyInv st → JC.objFoldJ f st l = some r → JC.keyInv r.1 := by
  intro l
  induction l with
  | nil =>
      intro st r h hr
      simp only [JC.objFoldJ, Option.some.injEq] at hr
      rw [← hr]; exact h
  | cons kv rest ih =>
      obtain ⟨k, v⟩ := kv
      intro st r h hr
      simp only [JC.objFoldJ] at hr
      split at hr
      · exact absurd hr (by simp)
      · rename_i st2 w hfv
        split at hr
        · exact absurd hr (by simp)
        · rename_i st3 l2 hrest
          simp only [Option.some.injEq] at hr
          rw [← hr]
          exact ih st2 (st3, l2)
            (hf _ v (st2, w) (jc_gsk_keyInv st k h) hfv) hrest

theorem jc_cellRowJ_keyInv (f : KSt → JVal → Option (KSt × JVal))
    (hf : ∀ st v r, JC.keyInv st → f st v = some r → JC.keyInv r.1) (item : JVal) :
    ∀ keys st r, JC.keyInv st → JC.cellRowJ f item st keys = some r → JC.keyInv r.1 := by
  intro keys
  induction keys with
  | nil =>
      intro st r h hr
      simp only [JC.cellRowJ, Option.some.injEq] at hr
      rw [← hr]; exact h
  | cons k rest ih =>
      intro st r h hr
      cases item with
      | obj kvs =>
          simp only [JC.cellRowJ] at hr
          split at hr
          · rename_i v ha
            split at hr
            · exact absurd hr (by simp)
            · rename_i st1 w hfv
              split at hr
              · exact absurd hr (by simp)
              · rename_i st2 ws hrest
                simp only [Option.some.injEq] at hr
                rw [← hr]
                exact ih st1 (st2, ws) (hf st v (st1, w) h hfv) hrest
          · exact absurd hr (by simp)
      | null => simp [JC.cellRowJ] at hr
      | bool b => simp [JC.cellRowJ] at hr
      | int n => simp [JC.cellRowJ] at hr
      | float q => simp [JC.cellRowJ] at hr
      | str s => simp [JC.cellRowJ] at hr
      | arr xs => simp [JC.cellRowJ] at hr

theorem jc_rowFoldJ_keyInv (f : KSt → JVal → Option (KSt × JVal))
    (hf : ∀ st v r, JC.keyInv st → f st v = some r → JC.keyInv r.1) (keys : List String) :
    ∀ items st r, JC.keyInv st → JC.rowFoldJ f keys st items = some r → JC.keyInv r.1 := by
  intro items
  induction items with
  | nil =>
      intro st r h hr
      simp only [JC.rowFoldJ, Option.some.injEq] at hr
      rw [← hr]; exact h
  | cons item rest ih =>
      intro st r h hr
      simp only [JC.rowFoldJ] at hr
      split at hr
      · exact absurd hr (by simp)
      · rename_i st1 row hcr
        split at hr
        · exact absurd hr (by simp)
        · rename_i st2 rows hrest
          simp only [Option.some.injEq] at hr
          rw [← hr]
          exact ih st1 (st2, rows)
            (jc_cellRowJ_keyInv f hf item keys st (st1, row) h hcr) hrest

theorem jc_caP_keyInv (p : JC.JFns)
    (hcv : ∀ st v r, JC.keyInv st → p.compress_value st v = some r → JC.keyInv r.1) :
    ∀ st xs r, JC.keyInv st → JC.compress_arrayP p st xs = some r → JC.keyInv r.1 := by
  intro st xs r h hr
  unfold JC.compress_arrayP at hr
  by_cases h1 : xs.isEmpty = true
  · rw [if_pos h1] at hr
    simp only [Option.some.injEq] at hr
    rw [← hr]; exact h
  · rw [if_neg h1] at hr
    by_cases h2 : (xs.all isObjJ && sameKeySetAll xs && decide (3 ≤ xs.length)) = true
    · rw [if_pos h2] at hr
      dsimp only at hr
      have hsk := jc_shortKeysFoldJ_keyInv (objKeys (xs.headD JVal.null)) st h
      split at hr
      · exact absurd hr (by simp)
      · rename_i st2 rows hrf
        simp only [Option.some.injEq] at hr
        rw [← hr]
        exact jc_rowFoldJ_keyInv p.compress_value hcv _ xs _ (st2, rows) hsk hrf
    · rw [if_neg h2] at hr
      split at hr
      · exact absurd hr (by simp)
      · rename_i st1 l hsm
        simp only [Option.some.injEq] at hr
        rw [← hr]
        exact jc_stMapJ_keyInv p.compress_value hcv xs st (st1, l) h hsm

theorem jc_cvP_keyInv (p : JC.JFns)
    (hcv : ∀ st v r, JC.keyInv st → p.compress_value st v = some r → JC.keyInv r.1)
    (hca : ∀ st xs r, JC.keyInv st → p.compress_array st xs = some r → JC.keyInv r.1) :
    ∀ st v r, JC.keyInv st → JC.compress_valueP p st v = some r → JC.keyInv r.1 := by
  intro st v r h hr
  cases v with
  | obj kvs =>
      simp only [JC.compress_valueP] at hr
      split at hr
      · exact absurd hr (by simp)
      · rename_i st1 l hof
        simp only [Option.some.injEq] at hr
        rw [← hr]
        exact jc_objFoldJ_keyInv p.compress_value hcv kvs st (st1, l) h hof
  | arr xs => exact hca st xs r h hr
  | null => simp only [JC.compress_valueP, Option.some.injEq] at hr; rw [← hr]; exact h
  | bool b => simp only [JC.compress_valueP, Option.some.injEq] at hr; rw [← hr]; exact h
  | int n => simp only [JC.compress_valueP, Option.some.injEq] at hr; rw [← hr]; exact h
  | float q => simp only [JC.compress_valueP, Option.some.injEq] at hr; rw [← hr]; exact h
  | str s => simp only [JC.compress_valueP, Option.some.injEq] at hr; rw [← hr]; exact h

theorem jc_fns_keyInv : ∀ gas,
    (∀ st v r, JC.keyInv st → (JC.jFns gas).compress_value st v = some r → JC.keyInv r.1) ∧
    (∀ st xs r, JC.keyInv st → (JC.jFns gas).compress_array st xs = some r → JC.keyInv r.1) := by
  intro gas
  induction gas with
  | zero =>
      constructor
      · intro st v r h hr; exact absurd hr (by simp [JC.jFns, JC.jFail])
      · intro st xs r h hr; exact absurd hr (by simp [JC.jFns, JC.jFail])
  | succ g ih =>
      constructor
      · intro st v r h hr
        exact jc_cvP_keyInv (JC.jFns g) ih.1 ih.2 st v r h hr
      · intro st xs r h hr
        exact jc_caP_keyInv (JC.jFns g) ih.1 st xs r h hr

/-- C7 counterexample: `compressed_readable.py` compresses every key, so
its emitted `"m"` maps even the one-character key "a" to a code — the
claim says keys at or below the threshold never appear there. -/
theorem c7_counterexample_cr_compresses_one_char_key :
    CR.compress 32 (JVal.obj [("a", JVal.int 1)])
      = .ok (JVal.obj [("d", JVal.obj [("0", JVal.int 1)]),
                       ("m", JVal.obj [("a", JVal.str "0")])]) ∧
    ("a" : String).length ≤ JC.min_key_length :=
  ⟨rfl, by decide⟩

/-- C7 amended: in `json_compressor.py` the threshold policy holds —
keys of length at most `min_key_length` are returned unchanged and never
occupy a dictionary slot, so over any whole encode invocation only
longer keys can appear in the emitted mapping.  `compressed_readable.py`
has no threshold: `_get_short_key` puts every requested key into the
dictionary. -/
theorem c7_amended_threshold_only_in_json_compressor :
    (∀ st k, k.length ≤ JC.min_key_length → JC.get_short_key st k = (st, k)) ∧
    (∀ gas v st env, JC.compress gas v = some (st, env) →
      ∀ p ∈ st.keyMap, JC.min_key_length < p.1.length) ∧
    (∀ st k, (alook (CR.get_short_key st k).1.keyMap k).isSome = true) := by
  refine ⟨?_, ?_, ?_⟩
  · intro st k h
    unfold JC.get_short_key
    rw [if_pos h]
  · intro gas v st env hc
    unfold JC.compress at hc
    cases hcv : (JC.jFns gas).compress_value ⟨[], 0⟩ v with
    | none => rw [hcv] at hc; simp at hc
    | some pr =>
        rw [hcv] at hc
        obtain ⟨st1, cd⟩ := pr
        simp only [Option.some.injEq, Prod.mk.injEq] at hc
        have hinv : JC.keyInv st1 := by
          refine (jc_fns_keyInv gas).1 ⟨[], 0⟩ v (st1, cd) ?_ hcv
          intro p hp
          exact absurd hp (List.not_mem_nil p)
        rw [← hc.1]
        exact hinv
  · intro st k
    unfold CR.get_short_key
    cases ha : alook st.keyMap k with
    | some sk => simp [ha]
    | none => exact alook_append_isSome st.keyMap k (encode_base62 st.counter)

/-- Witness for the amended C7: the 2-character key "id" is returned
unchanged with the dictionary untouched. -/
theorem c7_witness : JC.get_short_key ⟨[], 0⟩ "id" = (⟨[], 0⟩, "id") :=
  c7_amended_threshold_only_in_json_compressor.1 ⟨[], 0⟩ "id" (by decide)

/-! ## C9 -/

/-- C9 counterexample: the claim says an all-integer array with elements
beyond 32-bit range is packed as 64-bit floating point; the code instead
reaches `struct.pack('{n}i', ...)` and raises `struct.error` on 2^40. -/
theorem c9_counterexample_oob_int_array_errors :
    (CR.cFns 9).compress_array ⟨[], 0⟩
      [JVal.int 1099511627776, JVal.int 1, JVal.int 0, JVal.int 7]
      = .error .structError := rfl

theorem all_int8_false_of_witness (ns : List Int) (p : JVal → Bool)
    (n : Int) (hn : n ∈ ns) (hp : p (JVal.int n) = false) :
    (ns.map JVal.int).all p = false := by
  apply Bool.eq_false_iff.mpr
  intro hall
  have := List.all_eq_true.mp hall (JVal.int n) (List.mem_map_of_mem JVal.int hn)
  rw [hp] at this
  exact Bool.false_ne_true this

/-- C9 amended: for an all-numeric array of length ≥ 3 that is neither
constant nor an arithmetic progression, `_compress_array` dispatches to
`_pack_numbers`, which selects the narrowest signed width among 8, 16
and 32 bits that holds every integer (tags 'B', 'H', 'I'); an
all-integer array with an element beyond 32-bit range raises
`struct.error` instead of falling back to floats, while a non-integral
element sends the array to the 64-bit float branch (tag 'D').  An array
with constant successive differences produces a delta record
`{"s": start, "d": delta, "n": count}` instead. -/
theorem all_map_int_true (ns : List Int) (p : JVal → Bool)
    (h : ∀ n ∈ ns, p (JVal.int n) = true) : (ns.map JVal.int).all p = true := by
  rw [List.all_eq_true]
  intro v hv
  rw [List.mem_map] at hv
  obtain ⟨n, hn, rfl⟩ := hv
  exact h n hn

/-- C9 amended: for an all-numeric array of length ≥ 3 that is neither
constant nor an arithmetic progression, `_compress_array` dispatches to
`_pack_numbers`, which selects the narrowest signed width among 8, 16
and 32 bits that holds every integer (tags 'B', 'H', 'I'); an
all-integer array with an element beyond 32-bit range raises
`struct.error` instead of falling back to floats, while a non-integral
element sends the array to the 64-bit float branch (tag 'D').  An array
with constant successive differences produces a delta record
`{"s": start, "d": delta, "n": count}` instead. -/
theorem c9_amended_numeric_packing :
    (∀ gas st (ns : List Int), 3 ≤ ns.length →
      CR.is_sequential (ns.map JVal.int) = false →
      CR.is_constant ((CR.cFns (gas + 1)).py_eq) (ns.map JVal.int) = false →
      (CR.cFns (gas + 2)).compress_array st (ns.map JVal.int)
        = (pack_numbers (ns.map JVal.int)).map (fun s => (st, JVal.str s))) ∧
    (∀ ns : List Int,
      ((∀ n ∈ ns, -128 ≤ n ∧ n ≤ 127) →
        tagOf (pack_numbers (ns.map JVal.int)) = some 'B') ∧
      ((∀ n ∈ ns, -32768 ≤ n ∧ n ≤ 32767) → (∃ n ∈ ns, n < -128 ∨ 127 < n) →
        tagOf (pack_numbers (ns.map JVal.int)) = some 'H') ∧
      ((∀ n ∈ ns, -2147483648 ≤ n ∧ n ≤ 2147483647) →
        (∃ n ∈ ns, n < -32768 ∨ 32767 < n) →
        tagOf (pack_numbers (ns.map JVal.int)) = some 'I') ∧
      ((∃ n ∈ ns, n < -2147483648 ∨ 2147483647 < n) →
        pack_numbers (ns.map JVal.int) = .error .structError)) ∧
    (∀ (xs : List JVal) s, xs.all isNumJ = true → (∃ x ∈ xs, isIntLike x = false) →
      pack_numbers xs = .ok s → s.data.head? = some 'D') ∧
    ((CR.cFns 9).compress_array ⟨[], 0⟩ [JVal.int 0, JVal.int 5, JVal.int 10, JVal.int 15]
      = .ok (⟨[], 0⟩, JVal.obj [("s", JVal.int 0), ("d", JVal.int 5), ("n", JVal.int 4)])) := by
  refine ⟨?_, ?_, ?_, rfl⟩
  · intro gas st ns h3 hseq hconst
    show CR.compress_arrayP (CR.cFns (gas + 1)) st (ns.map JVal.int) = _
    have hb : (ns.map JVal.int).all isBoolJ = false := by
      obtain ⟨n0, t, rfl⟩ : ∃ n0 t, ns = n0 :: t := by
        cases ns with
        | nil => simp at h3
        | cons a t => exact ⟨a, t, rfl⟩
      simp [isBoolJ]
    have hn : (ns.map JVal.int).all isNumJ = true :=
      all_map_int_true ns isNumJ (fun n _ => rfl)
    have hlen3 : decide (3 ≤ (ns.map JVal.int).length) = true := by
      simp only [List.length_map]
      exact decide_eq_true h3
    have hemp : (ns.map JVal.int).isEmpty = false := by
      obtain ⟨n0, t, rfl⟩ : ∃ n0 t, ns = n0 :: t := by
        cases ns with
        | nil => simp at h3
        | cons a t => exact ⟨a, t, rfl⟩
      rfl
    unfold CR.compress_arrayP
    simp only [hemp, hb, hn, hseq, hconst, hlen3, Bool.false_and, Bool.true_and,
      Bool.and_false, Bool.and_self, Bool.false_eq_true, if_false, if_true]
    cases hp : pack_numbers (ns.map JVal.int) with
    | error e => simp [Except.map]
    | ok s => simp [Except.map]
  · intro ns
    refine ⟨?_, ?_, ?_, ?_⟩
    · intro hall
      have hc1 : (ns.map JVal.int).all
          (fun v => isIntLike v && decide (-128 ≤ ival v) && decide (ival v ≤ 127)) = true := by
        refine all_map_int_true ns _ (fun n hn => ?_)
        have := hall n hn
        simp [isIntLike, ival, this.1, this.2]
      unfold pack_numbers
      rw [hc1]
      simp [tagOf, b64encodeBytes]
    · intro hall hex
      obtain ⟨n, hn, hcase⟩ := hex
      have hc1 : (ns.map JVal.int).all
          (fun v => isIntLike v && decide (-128 ≤ ival v) && decide (ival v ≤ 127)) = false := by
        refine all_int8_false_of_witness ns _ n hn ?_
        simp only [isIntLike, ival, Bool.true_and]
        rcases hcase with hlt | hgt
        · simp [show ¬ (-128 ≤ n) from by omega]
        · simp [show ¬ (n ≤ 127) from by omega]
      have hc2 : (ns.map JVal.int).all
          (fun v => isIntLike v && decide (-32768 ≤ ival v) && decide (ival v ≤ 32767)) = true := by
        refine all_map_int_true ns _ (fun m hm => ?_)
        have := hall m hm
        simp [isIntLike, ival, this.1, this.2]
      unfold pack_numbers
      rw [hc1, hc2]
      simp [tagOf, b64encodeBytes]
    · intro hall hex
      obtain ⟨n, hn, hcase⟩ := hex
      have hc1 : (ns.map JVal.int).all
          (fun v => isIntLike v && decide (-128 ≤ ival v) && decide (ival v ≤ 127)) = false := by
        refine all_int8_false_of_witness ns _ n hn ?_
        simp only [isIntLike, ival, Bool.true_and]
        rcases hcase with hlt | hgt
        · simp [show ¬ (-128 ≤ n) from by omega]
        · simp [show ¬ (n ≤ 127) from by omega]
      have hc2 : (ns.map JVal.int).all
          (fun v => isIntLike v && decide (-32768 ≤ ival v) && decide (ival v ≤ 32767)) = false := by
        refine all_int8_false_of_witness ns _ n hn ?_
        simp only [isIntLike, ival, Bool.true_and]
        rcases hcase with hlt | hgt
        · simp [show ¬ (-32768 ≤ n) from by omega]
        · simp [show ¬ (n ≤ 32767) from by omega]
      have hc3 : (ns.map JVal.int).all isIntLike = true :=
        all_map_int_true ns isIntLike (fun n _ => rfl)
      have hc4 : (ns.map JVal.int).all
          (fun v => decide (-2147483648 ≤ ival v) && decide (ival v ≤ 2147483647)) = true := by
        refine all_map_int_true ns _ (fun m hm => ?_)
        have := hall m hm
        simp [ival, this.1, this.2]
      unfold pack_numbers
      rw [hc1, hc2, hc3, hc4]
      simp [tagOf, b64encodeBytes]
    · intro hex
      obtain ⟨n, hn, hcase⟩ := hex
      have hc1 : (ns.map JVal.int).all
          (fun v => isIntLike v && decide (-128 ≤ ival v) && decide (ival v ≤ 127)) = false := by
        refine all_int8_false_of_witness ns _ n hn ?_
        simp only [isIntLike, ival, Bool.true_and]
        rcases hcase with hlt | hgt
        · simp [show ¬ (-128 ≤ n) from by omega]
        · simp [show ¬ (n ≤ 127) from by omega]
      have hc2 : (ns.map JVal.int).all
          (fun v => isIntLike v && decide (-32768 ≤ ival v) && decide (ival v ≤ 32767)) = false := by
        refine all_int8_false_of_witness ns _ n hn ?_
        simp only [isIntLike, ival, Bool.true_and]
        rcases hcase with hlt | hgt
        · simp [show ¬ (-32768 ≤ n) from by omega]
        · simp [show ¬ (n ≤ 32767) from by omega]
      have hc3 : (ns.map JVal.int).all isIntLike = true :=
        all_map_int_true ns isIntLike (fun n _ => rfl)
      have hc4 : (ns.map JVal.int).all
          (fun v => decide (-2147483648 ≤ ival v) && decide (ival v ≤ 2147483647)) = false := by
        refine all_int8_false_of_witness ns _ n hn ?_
        simp only [ival]
        rcases hcase with hlt | hgt
        · simp [show ¬ (-2147483648 ≤ n) from by omega]
        · simp [show ¬ (n ≤ 2147483647) from by omega]
      unfold pack_numbers
      rw [hc1, hc2, hc3, hc4]
      simp
  · intro xs s hnum hex hok
    obtain ⟨x, hx, hxint⟩ := hex
    have hc1 : xs.all
        (fun v => isIntLike v && decide (-128 ≤ ival v) && decide (ival v ≤ 127)) = false := by
      apply Bool.eq_false_iff.mpr
      intro hall
      have := List.all_eq_true.mp hall x hx
      rw [hxint] at this
      simp at this
    have hc2 : xs.all
        (fun v => isIntLike v && decide (-32768 ≤ ival v) && decide (ival v ≤ 32767)) = false := by
      apply Bool.eq_false_iff.mpr
      intro hall
      have := List.all_eq_true.mp hall x hx
      rw [hxint] at this
      simp at this
    have hc3 : xs.all isIntLike = false := by
      apply Bool.eq_false_iff.mpr
      intro hall
      have := List.all_eq_true.mp hall x hx
      rw [hxint] at this
      exact Bool.false_ne_true this
    unfold pack_numbers at hok
    rw [hc1, hc2, hc3] at hok
    simp only [Bool.false_eq_true, if_false] at hok
    cases hem : exMap (fun v => packDouble (toQ0 v)) xs with
    | error e => rw [hem] at hok; simp [Except.map] at hok
    | ok bss =>
        rw [hem] at hok
        simp only [Except.map, Except.ok.injEq] at hok
        rw [← hok]
        rfl

/-- Witness for the amended C9: `[5, 99, -7]` fits in 8 bits and is
packed with the 'B' tag. -/
theorem c9_witness : tagOf (pack_numbers ([5, 99, -7].map JVal.int)) = some 'B' :=
  (c9_amended_numeric_packing.2.1 [5, 99, -7]).1 (by decide)

/-! ## C8 -/

theorem b64digit_val : ∀ m < 64, b64val (b64digit m) = some m := by decide

theorem b64digit_isSome : ∀ m, (b64val (b64digit m)).isSome = true := by
  intro m
  by_cases h : m < 64
  · rw [b64digit_val m h]; rfl
  · have hA : b64digit m = 'A' := by
      unfold b64digit
      apply List.getD_eq_default
      have h64 : b64chars.data.length = 64 := rfl
      omega
    rw [hA]; rfl

theorem b64digit_ne_pad (m : Nat) : b64digit m ≠ '=' := by
  intro h
  have hs := b64digit_isSome m
  rw [h] at hs
  exact absurd hs (by decide)

theorem b64encodeGo_mem (bs : List Nat) :
    ∀ c ∈ b64encodeGo bs, ((b64val c).isSome || c = '=') = true := by
  induction bs using b64encodeGo.induct with
  | case1 => intro c hc; simp [b64encodeGo] at hc
  | case2 a =>
      intro c hc
      simp only [b64encodeGo, List.mem_cons, List.not_mem_nil, or_false] at hc
      rcases hc with rfl | rfl | rfl | rfl
      · simp [b64digit_isSome]
      · simp [b64digit_isSome]
      · decide
      · decide
  | case3 a b =>
      intro c hc
      simp only [b64encodeGo, List.mem_cons, List.not_mem_nil, or_false] at hc
      rcases hc with rfl | rfl | rfl | rfl
      · simp [b64digit_isSome]
      · simp [b64digit_isSome]
      · simp [b64digit_isSome]
      · decide
  | case4 a b c' rest ih =>
      intro c hc
      simp only [b64encodeGo, List.mem_cons] at hc
      rcases hc with rfl | rfl | rfl | rfl | hc
      · simp [b64digit_isSome]
      · simp [b64digit_isSome]
      · simp [b64digit_isSome]
      · simp [b64digit_isSome]
      · exact ih c hc

theorem b64encodeGo_ne_colon (bs : List Nat) : ∀ c ∈ b64encodeGo bs, c ≠ ':' := by
  intro c hc h
  have hm := b64encodeGo_mem bs c hc
  rw [h] at hm
  exact absurd hm (by decide)

theorem b64decodeGo_encodeGo :
    ∀ (lim : Nat) (bs acc : List Nat), bs.length ≤ lim → (∀ b ∈ bs, b < 256) →
      b64decodeGo acc (b64encodeGo bs) = .ok (acc ++ bs) := by
  intro lim
  induction lim with
  | zero =>
      intro bs acc hlen hb
      have hnil : bs = [] := List.eq_nil_of_length_eq_zero (by omega)
      subst hnil
      simp [b64encodeGo, b64decodeGo]
  | succ n ih =>
      intro bs acc hlen hb
      rcases bs with _ | ⟨a, _ | ⟨b, _ | ⟨c, rest⟩⟩⟩
      · simp [b64encodeGo, b64decodeGo]
      · have ha : a < 256 := hb a (by simp)
        simp only [b64encodeGo, b64decodeGo,
          b64digit_val (a / 4) (by omega : a / 4 < 64),
          b64digit_val (a % 4 * 16) (by omega : a % 4 * 16 < 64)]
        simp
        all_goals omega
      · have ha : a < 256 := hb a (by simp)
        have hbb : b < 256 := hb b (by simp)
        simp only [b64encodeGo, b64decodeGo,
          b64digit_val (a / 4) (by omega : a / 4 < 64),
          b64digit_val (a % 4 * 16 + b / 16) (by omega : a % 4 * 16 + b / 16 < 64)]
        rw [if_neg (b64digit_ne_pad (b % 16 * 4))]
        simp only [b64digit_val (b % 16 * 4) (by omega : b % 16 * 4 < 64)]
        simp
        all_goals omega
      · have ha : a < 256 := hb a (by simp)
        have hbb : b < 256 := hb b (by simp)
        have hc : c < 256 := hb c (by simp)
        simp only [b64encodeGo, b64decodeGo,
          b64digit_val (a / 4) (by omega : a / 4 < 64),
          b64digit_val (a % 4 * 16 + b / 16) (by omega : a % 4 * 16 + b / 16 < 64)]
        rw [if_neg (b64digit_ne_pad (b % 16 * 4 + c / 64))]
        simp only [b64digit_val (b % 16 * 4 + c / 64)
          (by omega : b % 16 * 4 + c / 64 < 64)]
        rw [if_neg (b64digit_ne_pad (c % 64))]
        simp only [b64digit_val (c % 64) (by omega : c % 64 < 64)]
        have h1 : a / 4 * 4 + (a % 4 * 16 + b / 16) / 16 = a := by omega
        have h2 : (a % 4 * 16 + b / 16) % 16 * 16 + (b % 16 * 4 + c / 64) / 4 = b := by omega
        have h3 : (b % 16 * 4 + c / 64) % 4 * 64 + c % 64 = c := by omega
        rw [h1, h2, h3]
        rw [ih rest (acc ++ [a, b, c]) (by simp at hlen ⊢; omega)
          (fun x hx => hb x (by simp [hx]))]
        simp

theorem b64decode_encode (bs : List Nat) (hb : ∀ b ∈ bs, b < 256) :
    b64decodeStr (b64encodeBytes bs) = .ok bs := by
  unfold b64decodeStr b64encodeBytes
  rw [show (String.mk (b64encodeGo bs)).data = b64encodeGo bs from rfl]
  rw [List.filter_eq_self.mpr (b64encodeGo_mem bs)]
  have hlen : (b64encodeGo bs).length % 4 = 0 := by
    rw [b64encodeGo_length]
    omega
  rw [if_pos hlen]
  simpa using b64decodeGo_encodeGo bs.length bs [] (le_refl _) hb

theorem natDec_digit_props : ∀ r < 10,
    (Char.ofNat (48 + r)).toNat = 48 + r ∧ (Char.ofNat (48 + r)).isDigit = true ∧
    Char.ofNat (48 + r) ≠ ':' ∧ Char.ofNat (48 + r) ≠ '-' ∧ Char.ofNat (48 + r) ≠ '+' := by
  decide

theorem natDecGo_mem : ∀ gas n c, c ∈ natDecGo gas n →
    ∃ r, r < 10 ∧ c = Char.ofNat (48 + r) := by
  intro gas
  induction gas with
  | zero => intro n c hc; simp [natDecGo] at hc
  | succ g ih =>
      intro n c hc
      cases n with
      | zero => simp [natDecGo] at hc
      | succ m =>
          rw [show natDecGo (g + 1) (m + 1)
              = natDecGo g ((m + 1) / 10) ++ [Char.ofNat (48 + (m + 1) % 10)] from rfl] at hc
          rw [List.mem_append, List.mem_singleton] at hc
          rcases hc with hc | rfl
          · exact ih _ c hc
          · exact ⟨(m + 1) % 10, by omega, rfl⟩

theorem natDecGo_fold : ∀ gas n acc, n ≤ gas →
    (natDecGo gas n).foldl (fun acc c => acc * 10 + (c.toNat - 48)) acc
      = acc * 10 ^ (natDecGo gas n).length + n := by
  intro gas
  induction gas with
  | zero =>
      intro n acc h
      have hn : n = 0 := by omega
      subst hn
      simp [natDecGo]
  | succ g ih =>
      intro n acc h
      cases n with
      | zero => simp [natDecGo]
      | succ m =>
          rw [show natDecGo (g + 1) (m + 1)
              = natDecGo g ((m + 1) / 10) ++ [Char.ofNat (48 + (m + 1) % 10)] from rfl]
          rw [List.foldl_append]
          rw [ih ((m + 1) / 10) acc (by omega)]
          simp only [List.foldl_cons, List.foldl_nil]
          rw [(natDec_digit_props ((m + 1) % 10) (by omega)).1]
          rw [List.length_append, List.length_cons, List.length_nil]
          have hx : 48 + (m + 1) % 10 - 48 = (m + 1) % 10 := by omega
          rw [hx]
          have hdm : (m + 1) / 10 * 10 + (m + 1) % 10 = m + 1 := by omega
          calc (acc * 10 ^ (natDecGo g ((m + 1) / 10)).length + (m + 1) / 10) * 10
                + (m + 1) % 10
              = acc * 10 ^ ((natDecGo g ((m + 1) / 10)).length + (0 + 1))
                + ((m + 1) / 10 * 10 + (m + 1) % 10) := by ring
            _ = acc * 10 ^ ((natDecGo g ((m + 1) / 10)).length + (0 + 1)) + (m + 1) := by
                rw [hdm]

theorem parsePyInt_natDecimal (n : Nat) : parsePyInt (natDecimal n) = .ok (n : Int) := by
  unfold natDecimal
  by_cases h0 : n = 0
  · subst h0; rw [if_pos rfl]; rfl
  · rw [if_neg h0]
    have hne : natDecGo n n ≠ [] := by
      cases n with
      | zero => exact absurd rfl h0
      | succ m =>
          rw [show natDecGo (m + 1) (m + 1)
              = natDecGo m ((m + 1) / 10) ++ [Char.ofNat (48 + (m + 1) % 10)] from rfl]
          simp
    obtain ⟨c, rest, hd⟩ := List.exists_cons_of_ne_nil hne
    unfold parsePyInt
    rw [show (String.mk (natDecGo n n)).data = natDecGo n n from rfl, hd]
    have hcmem : c ∈ natDecGo n n := by rw [hd]; simp
    obtain ⟨r, hr, rfl⟩ := natDecGo_mem n n c hcmem
    have hprops := natDec_digit_props r hr
    dsimp only
    rw [if_neg hprops.2.2.2.1, if_neg hprops.2.2.2.2]
    rw [← hd]
    unfold parsePyIntCore
    have hdig : (natDecGo n n).all (·.isDigit) = true := by
      rw [List.all_eq_true]
      intro x hx
      obtain ⟨r2, hr2, rfl⟩ := natDecGo_mem n n x hx
      exact (natDec_digit_props r2 hr2).2.1
    have hempty : (natDecGo n n).isEmpty = false := by
      rw [hd]; rfl
    rw [hempty, hdig]
    simp only [Bool.not_true, Bool.or_false, Bool.false_eq_true, if_false]
    rw [natDecGo_fold n n 0 (le_refl n)]
    simp [Except.map]

theorem byteOfBits_lt (l : List Bool) : byteOfBits l < 2 ^ l.length := by
  induction l with
  | nil => simp [byteOfBits]
  | cons b t ih =>
      simp only [byteOfBits, List.length_cons, pow_succ]
      cases b <;> simp <;> omega

theorem boolChunksGo_mem_len : ∀ gas bs c, c ∈ boolChunksGo gas bs → c.length ≤ 8 := by
  intro gas
  induction gas with
  | zero => intro bs c hc; simp [boolChunksGo] at hc
  | succ g ih =>
      intro bs c hc
      cases bs with
      | nil => simp [boolChunksGo] at hc
      | cons x t =>
          rw [show boolChunksGo (g + 1) (x :: t)
              = (x :: t).take 8 :: boolChunksGo g ((x :: t).drop 8) from rfl] at hc
          rcases List.mem_cons.mp hc with rfl | hc
          · simp [List.length_take]
          · exact ih _ c hc

theorem packBits_bytes_lt (bs : List Bool) : ∀ x ∈ packBits bs, x < 256 := by
  intro x hx
  unfold packBits at hx
  rw [List.mem_map] at hx
  obtain ⟨c, hc, rfl⟩ := hx
  have h1 := byteOfBits_lt c
  have h2 := boolChunksGo_mem_len bs.length bs c hc
  have h3 : (2 : Nat) ^ c.length ≤ 2 ^ 8 := Nat.pow_le_pow_right (by omega) h2
  have h4 : (2 : Nat) ^ 8 = 256 := rfl
  omega

theorem byteOfBits_bit : ∀ (l : List Bool) (k : Nat), k < l.length →
    byteOfBits l / 2 ^ k % 2 = (if l.getD k false then 1 else 0) := by
  intro l
  induction l with
  | nil => intro k hk; simp at hk
  | cons b t ih =>
      intro k hk
      cases k with
      | zero =>
          simp only [pow_zero, Nat.div_one, List.getD_cons_zero, byteOfBits]
          cases b <;> simp <;> omega
      | succ k2 =>
          simp only [byteOfBits, List.getD_cons_succ]
          rw [show (2 : Nat) ^ (k2 + 1) = 2 * 2 ^ k2 from by ring]
          rw [← Nat.div_div_eq_div_mul]
          have hx : ((if b then 1 else 0) + 2 * byteOfBits t) / 2 = byteOfBits t := by
            cases b <;> simp <;> omega
          rw [hx]
          exact ih k2 (by simpa using hk)

theorem boolChunksGo_get : ∀ (gas : Nat) (bs : List Bool) (j : Nat),
    bs.length ≤ gas → 8 * j < bs.length →
    (boolChunksGo gas bs).get? j = some ((bs.drop (8 * j)).take 8) := by
  intro gas
  induction gas with
  | zero => intro bs j h1 h2; omega
  | succ g ih =>
      intro bs j h1 h2
      cases bs with
      | nil => simp at h2
      | cons x t =>
          rw [show boolChunksGo (g + 1) (x :: t)
              = (x :: t).take 8 :: boolChunksGo g ((x :: t).drop 8) from rfl]
          cases j with
          | zero => simp
          | succ j2 =>
              rw [List.get?_cons_succ]
              rw [ih ((x :: t).drop 8) j2 (by simp at h1 ⊢; omega)
                (by simp [List.length_drop] at h2 ⊢; omega)]
              rw [List.drop_drop]
              have hidx : 8 + 8 * j2 = 8 * (j2 + 1) := by ring
              rw [hidx]

theorem packBits_get (bs : List Bool) (i : Nat) (hi : i < bs.length) :
    (packBits bs).get? (i / 8) = some (byteOfBits ((bs.drop (8 * (i / 8))).take 8)) := by
  unfold packBits
  rw [List.get?_map]
  rw [boolChunksGo_get bs.length bs (i / 8) (le_refl _) (by omega)]
  rfl

theorem chunk_getD (bs : List Bool) (i : Nat) (hi : i < bs.length) :
    ((bs.drop (8 * (i / 8))).take 8).getD (i % 8) false = bs.getD i false := by
  rw [List.getD_eq_getElem?_getD, List.getD_eq_getElem?_getD]
  rw [List.getElem?_take, if_pos (by omega : i % 8 < 8)]
  rw [List.getElem?_drop]
  have hidx : 8 * (i / 8) + i % 8 = i := by omega
  rw [hidx]

theorem cr_py_eqP_bool (pe : JVal → JVal → Bool) (a b : Bool) :
    CR.py_eqP pe (JVal.bool a) (JVal.bool b) = (a == b) := by
  cases a <;> cases b <;> rfl

theorem all_isBoolJ_cons_map (b : Bool) (bs : List Bool) :
    (JVal.bool b :: bs.map JVal.bool).all isBoolJ = true := by
  rw [List.all_eq_true]
  intro v hv
  rcases List.mem_cons.mp hv with rfl | hv
  · rfl
  · obtain ⟨x, _, rfl⟩ := List.mem_map.mp hv
    rfl

theorem is_constant_bool_const (pe : JVal → JVal → Bool) (b : Bool) (bs : List Bool)
    (h : ∀ x ∈ bs, x = b) :
    CR.is_constant (CR.py_eqP pe) (JVal.bool b :: bs.map JVal.bool) = true := by
  unfold CR.is_constant
  rw [Bool.and_eq_true]
  refine ⟨rfl, ?_⟩
  rw [List.all_eq_true]
  intro v hv
  simp only [List.headD_cons]
  rcases List.mem_cons.mp hv with rfl | hv
  · rw [cr_py_eqP_bool]; simp
  · obtain ⟨x, hx, rfl⟩ := List.mem_map.mp hv
    rw [h x hx, cr_py_eqP_bool]
    simp

theorem is_constant_bool_nonconst (pe : JVal → JVal → Bool) (b : Bool) (bs : List Bool)
    (x : Bool) (hx : x ∈ bs) (hne : x ≠ b) :
    CR.is_constant (CR.py_eqP pe) (JVal.bool b :: bs.map JVal.bool) = false := by
  unfold CR.is_constant
  rw [Bool.eq_false_iff]
  intro hcontra
  rw [Bool.and_eq_true, List.all_eq_true] at hcontra
  have hm : JVal.bool x ∈ JVal.bool b :: bs.map JVal.bool :=
    List.mem_cons_of_mem _ (List.mem_map_of_mem _ hx)
  have hv := hcontra.2 _ hm
  simp only [List.headD_cons] at hv
  rw [cr_py_eqP_bool] at hv
  exact hne (by simpa using hv)

theorem map_boolOf (bs : List Bool) : (bs.map JVal.bool).map boolOf = bs := by
  induction bs with
  | nil => rfl
  | cons x t ih => simp [boolOf, ih]

theorem findIdx_colon_go : ∀ (l : List Char) (r : List Char) (i : Nat),
    (∀ c ∈ l, c ≠ ':') →
    List.findIdx? (· = ':') (l ++ ':' :: r) i = some (i + l.length) := by
  intro l
  induction l with
  | nil =>
      intro r i h
      simp [List.findIdx?_cons]
  | cons c t ih =>
      intro r i h
      rw [List.cons_append, List.findIdx?_cons]
      rw [if_neg (by simp only [decide_eq_true_eq]; exact h c (List.mem_cons_self c t))]
      rw [ih r (i + 1) (fun d hd => h d (List.mem_cons_of_mem c hd))]
      have hidx : i + 1 + t.length = i + (c :: t).length := by
        rw [List.length_cons]; omega
      rw [hidx]

theorem splitFirstColon_clean (l r : List Char) (h : ∀ c ∈ l, c ≠ ':') :
    splitFirstColon (String.mk (l ++ ':' :: r)) = some (String.mk l, String.mk r) := by
  unfold splitFirstColon
  rw [show (String.mk (l ++ ':' :: r)).data = l ++ ':' :: r from rfl]
  rw [findIdx_colon_go l r 0 h]
  dsimp only
  rw [Nat.zero_add]
  rw [List.take_left]
  rw [List.append_cons]
  have hl : l.length + 1 = (l ++ [':']).length := by simp
  rw [hl, List.drop_left]

theorem exMap_ok_of_pointwise {α β : Type} (f : α → Except PyErr β) (g : α → β) :
    ∀ l : List α, (∀ a ∈ l, f a = .ok (g a)) → exMap f l = .ok (l.map g) := by
  intro l
  induction l with
  | nil => intro _; rfl
  | cons a t ih =>
      intro h
      unfold exMap
      rw [h a (List.mem_cons_self a t)]
      rw [ih (fun b hb => h b (List.mem_cons_of_mem a hb))]
      rfl

theorem unpack_read_bit (bs : List Bool) (i : Nat) (hi : i < bs.length) :
    (match (packBits bs).get? (i / 8) with
      | none => (Except.error PyErr.indexError : Except PyErr Bool)
      | some byte => Except.ok (byte / 2 ^ (i % 8) % 2 = 1 : Bool))
      = Except.ok (bs.getD i false) := by
  rw [packBits_get bs i hi]
  dsimp only
  have hlen : i % 8 < ((bs.drop (8 * (i / 8))).take 8).length := by
    rw [List.length_take, List.length_drop]
    omega
  rw [byteOfBits_bit _ _ hlen, chunk_getD bs i hi]
  cases hb : bs.getD i false <;> rfl

theorem range_map_getD (bs : List Bool) :
    (List.range bs.length).map (fun i => bs.getD i false) = bs := by
  apply List.ext_getElem
  · simp
  · intro n h1 h2
    simp only [List.getElem_map, List.getElem_range]
    exact List.getD_eq_getElem bs false h2

theorem pack_booleans_data (bs : List Bool) :
    (pack_booleans bs).data
      = 'T' :: (b64encodeGo (packBits bs) ++ ':' :: (natDecimal bs.length).data) := by
  show ("T" ++ b64encodeBytes (packBits bs) ++ ":" ++ natDecimal bs.length).data = _
  rw [String.data_append, String.data_append, String.data_append]
  rw [show ("T" : String).data = ['T'] from rfl, show (":" : String).data = [':'] from rfl]
  rw [show (b64encodeBytes (packBits bs)).data = b64encodeGo (packBits bs) from rfl]
  simp

theorem unpack_pack_booleans (bs : List Bool) :
    unpack_booleans (pack_booleans bs) = .ok bs := by
  unfold unpack_booleans
  rw [pack_booleans_data]
  rw [show ('T' :: (b64encodeGo (packBits bs) ++ ':' :: (natDecimal bs.length).data)).tail
      = b64encodeGo (packBits bs) ++ ':' :: (natDecimal bs.length).data from rfl]
  rw [splitFirstColon_clean _ _ (b64encodeGo_ne_colon (packBits bs))]
  dsimp only
  rw [show String.mk (b64encodeGo (packBits bs)) = b64encodeBytes (packBits bs) from rfl]
  rw [b64decode_encode (packBits bs) (packBits_bytes_lt bs)]
  dsimp only
  rw [show String.mk (natDecimal bs.length).data = natDecimal bs.length from rfl]
  rw [parsePyInt_natDecimal]
  dsimp only
  rw [Int.toNat_natCast]
  rw [exMap_ok_of_pointwise _ (fun i => bs.getD i false) (List.range bs.length)
    (fun i hi => unpack_read_bit bs i (List.mem_range.mp hi))]
  rw [range_map_getD]

/-- C8 counterexample: `_is_constant` is `len(values) > 0 and ...`, so a
single-element boolean array `[True]` already takes the constant-record
branch and yields `\x7b"c": true, "n": 1\x7d`, although the spec ties the
constant run to at least 2 elements. -/
theorem c8_counterexample_single_bool_constant_record :
    (CR.cFns 9).compress_array ⟨[], 0⟩ [JVal.bool true]
      = .ok (⟨[], 0⟩, JVal.obj [("c", JVal.bool true), ("n", JVal.int 1)]) := rfl

/-- C8 amended: for an all-boolean array, a constant run — already at a
single element, not only from 2 — yields the record `\x7b"c": value,
"n": count\x7d`; a non-constant boolean array of length at least 3 is
bit-packed by `_pack_booleans`, 8 booleans per byte least-significant-bit
first with the count after a colon, and `_unpack_booleans` restores
exactly the original sequence; `[true, false, false, true, true]` packs
to the literal string `"TGQ==:5"`. -/
theorem c8_amended_bool_paths :
    (∀ gas (st : KSt) (b : Bool) (bs : List Bool), (∀ x ∈ bs, x = b) →
      (CR.cFns (gas + 2)).compress_array st (JVal.bool b :: bs.map JVal.bool)
        = .ok (st, JVal.obj [("c", JVal.bool b),
                             ("n", JVal.int ((bs.length + 1 : Nat) : Int))])) ∧
    (∀ gas (st : KSt) (b : Bool) (bs : List Bool) (x : Bool), x ∈ bs → x ≠ b →
      3 ≤ bs.length + 1 →
      (CR.cFns (gas + 2)).compress_array st (JVal.bool b :: bs.map JVal.bool)
        = .ok (st, JVal.str (pack_booleans (b :: bs)))) ∧
    (∀ bs : List Bool, unpack_booleans (pack_booleans bs) = .ok bs) ∧
    pack_booleans [true, false, false, true, true] = "TGQ==:5" := by
  refine ⟨?_, ?_, unpack_pack_booleans, rfl⟩
  · intro gas st b bs hconst
    show CR.compress_arrayP (CR.cFns (gas + 1)) st (JVal.bool b :: bs.map JVal.bool) = _
    have hbool := all_isBoolJ_cons_map b bs
    have hconst2 : CR.is_constant ((CR.cFns (gas + 1)).py_eq)
        (JVal.bool b :: bs.map JVal.bool) = true :=
      is_constant_bool_const ((CR.cFns gas).py_eq) b bs hconst
    unfold CR.compress_arrayP
    simp [hbool, hconst2]
  · intro gas st b bs x hx hne hlen
    show CR.compress_arrayP (CR.cFns (gas + 1)) st (JVal.bool b :: bs.map JVal.bool) = _
    have hbool := all_isBoolJ_cons_map b bs
    have hconst2 : CR.is_constant ((CR.cFns (gas + 1)).py_eq)
        (JVal.bool b :: bs.map JVal.bool) = false :=
      is_constant_bool_nonconst ((CR.cFns gas).py_eq) b bs x hx hne
    unfold CR.compress_arrayP
    simp [hbool, hconst2, hlen, map_boolOf, boolOf]
    rw [← List.map_map]
    rw [map_boolOf]

/-- Witness for C8: a constant pair of booleans gives the record, the
5-element non-constant array gives the packed string "TGQ==:5", and
unpacking that string restores the array. -/
theorem c8_witness :
    (CR.cFns 9).compress_array ⟨[], 0⟩ [JVal.bool true, JVal.bool true, JVal.bool true]
      = .ok (⟨[], 0⟩, JVal.obj [("c", JVal.bool true), ("n", JVal.int 3)])
    ∧ (CR.cFns 9).compress_array ⟨[], 0⟩
        [JVal.bool true, JVal.bool false, JVal.bool false, JVal.bool true, JVal.bool true]
      = .ok (⟨[], 0⟩, JVal.str "TGQ==:5")
    ∧ unpack_booleans "TGQ==:5" = .ok [true, false, false, true, true] := by
  obtain ⟨ha, hb, hc, _⟩ := c8_amended_bool_paths
  refine ⟨?_, ?_, ?_⟩
  · exact ha 7 ⟨[], 0⟩ true [true, true] (by decide)
  · exact hb 7 ⟨[], 0⟩ true [false, false, true, true] false (by decide) (by decide)
      (by decide)
  · exact hc [true, false, false, true, true]
